import Mathlib

/-
Verification of the ilo shader cache / kernel upload manager
(src/gallium/drivers/ilo shader state code, file ilo_shader.c).

The embedding models, straight from the C source:
 - struct ilo_shader            (a compiled kernel variant)
 - struct ilo_shader_state      (a logical shader program owning variants)
 - struct ilo_shader_cache      (two intrusive lists of programs:
                                 shaders = resident, changed = pending)
 - align(v, 64)                 (the 64-byte kernel alignment macro)
 - ilo_shader_cache_upload_shader / _get_upload_size / _upload
 - ilo_shader_cache_add / _remove / _notify_change
 - ilo_shader_state_gc / _search_variant / _use_variant
 - ilo_shader_select_kernel

Machine words are modelled as Nat (the C unsigned offsets only grow and the
claims never exercise 32-bit wraparound); the C int return value of the
upload entry point is modelled as Int (-1 on write failure, as in the C).
The opaque buffer-write primitive intel_bo_pwrite is modelled by an oracle
wok : Nat -> Nat -> Bool deciding, per (offset, size), whether the write
succeeds; each successful write is recorded as a WriteEvent.  The opaque
per-stage compilers (ilo_shader_compile_vs etc.) are modelled by an oracle
pair (compileOk, ksize).  Pointer identity of variants and programs is
modelled by identifier fields (vid / pid) drawn from fresh counters.
-/

namespace Ilo


/-- Alignment macro from the source tree: round v up to the next multiple of
the power-of-two alignment a.  The C form ((v + a - 1) and not (a - 1))
coincides with this division form at the single call-site alignment 64. -/
def align (v a : Nat) : Nat := (v + a - 1) / a * a

/-- One compiled kernel variant (struct ilo_shader).  vid models pointer
identity, variant models the memcmp-compared variant key, the other three
fields are kernel_size, uploaded and cache_offset from the C struct. -/
structure IloShader where
  vid : Nat
  variant : Nat
  kernel_size : Nat
  uploaded : Bool
  cache_offset : Nat
deriving DecidableEq

/-- One successful intel_bo_pwrite call: target offset and byte count. -/
structure WriteEvent where
  off : Nat
  size : Nat
deriving DecidableEq

/-- One logical shader program (struct ilo_shader_state): its variant list
(most recently used first), the num_variants / total_size accounting
fields, the currently selected variant (shader, by vid), a fresh-vid
counter modelling allocation of new variants, and the
info.non_orthogonal_states dirty-state mask. -/
structure IloShaderState where
  pid : Nat
  variants : List IloShader
  num_variants : Nat
  total_size : Nat
  shader : Option Nat
  next_vid : Nat
  non_orthogonal_states : Nat
deriving DecidableEq

/-- The shader cache (struct ilo_shader_cache): the resident list
(shc->shaders) and the pending list (shc->changed). -/
structure IloShaderCache where
  shaders : List IloShaderState
  changed : List IloShaderState
deriving DecidableEq

/-- Loop body of ilo_shader_cache_upload_shader: walk the variant list with
the running offset; skip a variant iff incremental and already uploaded;
otherwise align the offset to 64, attempt the write, and on success mark
the variant uploaded at that cache_offset and advance by kernel_size.
Returns the rewritten variant list, the writes performed, and some final
offset on success / none when a write failed (the C returns -1 and leaves
the remaining variants untouched). -/
def uploadShaderGo (wok : Nat → Nat → Bool) (incremental : Bool) :
    List IloShader → Nat → List IloShader × List WriteEvent × Option Nat
  | [], offset => ([], [], some offset)
  | sh :: rest, offset =>
    if incremental && sh.uploaded then
      let r := uploadShaderGo wok incremental rest offset
      (sh :: r.1, r.2.1, r.2.2)
    else
      let aoff := align offset 64
      if wok aoff sh.kernel_size then
        let sh' := { sh with uploaded := true, cache_offset := aoff }
        let r := uploadShaderGo wok incremental rest (aoff + sh.kernel_size)
        (sh' :: r.1, ⟨aoff, sh.kernel_size⟩ :: r.2.1, r.2.2)
      else
        (sh :: rest, [], none)

/-- ilo_shader_cache_upload_shader: upload one program's variants starting
at offset; the Int result is (offset - base) on success and -1 on a write
failure, exactly as in the C. -/
def ilo_shader_cache_upload_shader (wok : Nat → Nat → Bool)
    (shader : IloShaderState) (offset : Nat) (incremental : Bool) :
    IloShaderState × List WriteEvent × Int :=
  let r := uploadShaderGo wok incremental shader.variants offset
  ({ shader with variants := r.1 }, r.2.1,
    match r.2.2 with
    | some off2 => Int.ofNat (off2 - offset)
    | none => -1)

/-- Inner loop of ilo_shader_cache_get_upload_size over one variant list,
with the condition written exactly as in the source:
if (not incremental or not sh->uploaded) account align(offset,64) +
kernel_size. -/
def getUploadSizeVariants (incremental : Bool) :
    List IloShader → Nat → Nat
  | [], offset => offset
  | sh :: rest, offset =>
    if !incremental || !sh.uploaded then
      getUploadSizeVariants incremental rest (align offset 64 + sh.kernel_size)
    else
      getUploadSizeVariants incremental rest offset

/-- ilo_shader_cache_get_upload_size: the dry-run size computation.  When
not incremental it first accounts every resident program, then always
accounts the changed programs, and finally adds the 128-byte instruction
prefetch pad iff any bytes were accounted at all. -/
def ilo_shader_cache_get_upload_size (shc : IloShaderCache)
    (offset : Nat) (incremental : Bool) : Nat :=
  let base := offset
  let o1 := if !incremental then
      shc.shaders.foldl
        (fun o s => getUploadSizeVariants incremental s.variants o) offset
    else offset
  let o2 := shc.changed.foldl
      (fun o s => getUploadSizeVariants incremental s.variants o) o1
  let o3 := if base < o2 then o2 + 128 else o2
  o3 - base

/-- First pass of ilo_shader_cache_upload (the not-incremental loop over
shc->shaders): upload each resident program in order, threading the
offset; abort on the first failure, leaving later programs untouched. -/
def uploadProgs (wok : Nat → Nat → Bool) (incremental : Bool) :
    List IloShaderState → Nat →
    List IloShaderState × List WriteEvent × Option Nat
  | [], offset => ([], [], some offset)
  | p :: rest, offset =>
    let r := uploadShaderGo wok incremental p.variants offset
    let p' := { p with variants := r.1 }
    match r.2.2 with
    | none => (p' :: rest, r.2.1, none)
    | some off2 =>
      let rr := uploadProgs wok incremental rest off2
      (p' :: rr.1, r.2.1 ++ rr.2.1, rr.2.2)

/-- Second pass of ilo_shader_cache_upload (the LIST_FOR_EACH_ENTRY_SAFE
loop over shc->changed): upload each changed program, then move it to the
head of the resident list (list_add after list_del); abort on the first
failure, leaving the failing program and its successors on the changed
list.  Arguments: current resident list, remaining changed list, offset;
result: resident list, remaining changed list, writes, final offset on
success. -/
def uploadChanged (wok : Nat → Nat → Bool) (incremental : Bool) :
    List IloShaderState → List IloShaderState → Nat →
    List IloShaderState × List IloShaderState × List WriteEvent × Option Nat
  | shaders, [], offset => (shaders, [], [], some offset)
  | shaders, p :: rest, offset =>
    let r := uploadShaderGo wok incremental p.variants offset
    let p' := { p with variants := r.1 }
    match r.2.2 with
    | none => (shaders, p' :: rest, r.2.1, none)
    | some off2 =>
      let rr := uploadChanged wok incremental (p' :: shaders) rest off2
      (rr.1, rr.2.1, r.2.1 ++ rr.2.2.1, rr.2.2.2)

/-- The real-buffer body of ilo_shader_cache_upload: the resident pass runs
only when not incremental, then the changed pass runs; the final offset is
returned on success (the C accumulates size += s per program, which equals
the total offset advance). -/
def uploadReal (wok : Nat → Nat → Bool) (shc : IloShaderCache)
    (offset : Nat) (incremental : Bool) :
    IloShaderCache × List WriteEvent × Option Nat :=
  if !incremental then
    let r := uploadProgs wok incremental shc.shaders offset
    match r.2.2 with
    | none => (⟨r.1, shc.changed⟩, r.2.1, none)
    | some off2 =>
      let rr := uploadChanged wok incremental r.1 shc.changed off2
      (⟨rr.1, rr.2.1⟩, r.2.1 ++ rr.2.2.1, rr.2.2.2)
  else
    let rr := uploadChanged wok incremental shc.shaders shc.changed offset
    (⟨rr.1, rr.2.1⟩, rr.2.2.1, rr.2.2.2)

/-- Result of ilo_shader_cache_upload: the post cache, the writes actually
performed, and the C int return value (bytes advanced, or -1 on error;
for a null bo, the computed dry-run size). -/
structure UploadResult where
  shc : IloShaderCache
  writes : List WriteEvent
  ret : Int
deriving DecidableEq

/-- ilo_shader_cache_upload: with a null bo (bo = false) it just returns
the dry-run size and performs no writes; with a real bo it runs the two
upload passes. -/
def ilo_shader_cache_upload (wok : Nat → Nat → Bool) (shc : IloShaderCache)
    (bo : Bool) (offset : Nat) (incremental : Bool) : UploadResult :=
  if !bo then
    ⟨shc, [], Int.ofNat (ilo_shader_cache_get_upload_size shc offset incremental)⟩
  else
    let r := uploadReal wok shc offset incremental
    ⟨r.1, r.2.1,
      match r.2.2 with
      | some off2 => Int.ofNat (off2 - offset)
      | none => -1⟩

/-- Loop of ilo_shader_state_gc over the reversed variant list
(LIST_FOR_EACH_ENTRY_SAFE_REV walks from the tail): remove the variant
(decrementing total_size and num_variants, as ilo_shader_state_remove_shader
does) and stop as soon as total_size has dropped to limit/2 = 2048. -/
def gcRev : List IloShader → Nat → Nat → List IloShader × Nat × Nat
  | [], total, num => ([], total, num)
  | sh :: revRest, total, num =>
    let total' := total - sh.kernel_size
    let num' := num - 1
    if total' ≤ 2048 then (revRest, total', num')
    else gcRev revRest total' num'

/-- ilo_shader_state_gc: do nothing while total_size is below the
limit = 4 * 1024 bytes; otherwise evict variants from the tail of the
recency list until total_size ≤ limit/2 or the list is exhausted. -/
def ilo_shader_state_gc (state : IloShaderState) : IloShaderState :=
  if state.total_size < 4096 then state
  else
    let r := gcRev state.variants.reverse state.total_size state.num_variants
    { state with variants := r.1.reverse, total_size := r.2.1,
                 num_variants := r.2.2 }

/-- ilo_shader_state_search_variant: linear scan for the first variant whose
key compares equal (memcmp == 0) to the requested key. -/
def ilo_shader_state_search_variant (state : IloShaderState) (key : Nat) :
    Option IloShader :=
  state.variants.find? (fun sh => sh.variant == key)

/-- ilo_shader_state_use_variant.  On a hit, move the matched variant to the
head of the list and select it.  On a miss, garbage-collect, then (if the
external compiler succeeds, oracle compileOk with kernel size ksize) add a
fresh variant at the head with uploaded = false — as
ilo_shader_state_add_variant / _add_shader do — and select it; a failed
compile leaves the garbage-collected state with no selection change.
Returns (new state, whether a new variant was added, the C bool result). -/
def ilo_shader_state_use_variant (state : IloShaderState) (key : Nat)
    (compileOk : Bool) (ksize : Nat) : IloShaderState × Bool × Bool :=
  match ilo_shader_state_search_variant state key with
  | some sh =>
    ({ state with
        variants := sh :: state.variants.eraseP (fun t => t.variant == key),
        shader := some sh.vid }, false, true)
  | none =>
    let st := ilo_shader_state_gc state
    if compileOk then
      let sh : IloShader := ⟨st.next_vid, key, ksize, false, 0⟩
      ({ st with variants := sh :: st.variants,
                 num_variants := st.num_variants + 1,
                 total_size := st.total_size + ksize,
                 next_vid := st.next_vid + 1,
                 shader := some sh.vid }, true, true)
    else
      (st, false, false)

/-- ilo_shader_select_kernel: the fast path returns false when none of the
dirty bits intersect the program's non_orthogonal_states mask; otherwise
the variant key computed by ilo_shader_variant_init (oracle key) is used
via ilo_shader_state_use_variant and the result compares the selected
variant against the previously selected one. -/
def ilo_shader_select_kernel (state : IloShaderState) (dirty : Nat)
    (key : Nat) (compileOk : Bool) (ksize : Nat) : IloShaderState × Bool :=
  if state.non_orthogonal_states &&& dirty == 0 then (state, false)
  else
    let r := ilo_shader_state_use_variant state key compileOk ksize
    (r.1, decide (r.1.shader ≠ state.shader))

/-- Resetting a program on ilo_shader_cache_add: every variant's uploaded
flag is cleared (the loop at the top of ilo_shader_cache_add). -/
def iloCacheAddReset (p : IloShaderState) : IloShaderState :=
  { p with variants := p.variants.map (fun sh => { sh with uploaded := false }) }

/-- Whole-system state for the public operations: the cache's two lists,
the programs that exist but are not registered in the cache
(shader->cache == NULL), the ghost set of registered program ids
(shader->cache == shc), and a fresh-pid counter modelling allocation. -/
structure CacheSys where
  shaders : List IloShaderState
  changed : List IloShaderState
  detached : List IloShaderState
  registered : List Nat
  next_pid : Nat
deriving DecidableEq

/-- All programs in existence, in list order: resident, changed, detached. -/
def allProgs (sys : CacheSys) : List IloShaderState :=
  sys.shaders ++ sys.changed ++ sys.detached

/-- The empty initial system: a freshly created cache and no programs. -/
def initSys : CacheSys := ⟨[], [], [], [], 0⟩

/-- ilo_shader_cache_notify_change for program pid: delete the program from
whichever cache list holds it and re-add it at the head of the changed
list; a program not registered in this cache is untouched. -/
def moveToChanged (pid : Nat) (sys : CacheSys) : CacheSys :=
  { sys with
    shaders := sys.shaders.filter (fun p => p.pid != pid),
    changed := sys.shaders.filter (fun p => p.pid == pid)
               ++ sys.changed.filter (fun p => p.pid == pid)
               ++ sys.changed.filter (fun p => p.pid != pid) }

/-- The public operations on the system: program creation (the
ilo_shader_create_xs entry points, carrying the non_orthogonal_states
mask), ilo_shader_cache_add / _remove, ilo_shader_cache_notify_change,
ilo_shader_cache_upload (failures lists the (offset, size) writes that
fail), ilo_shader_state_use_variant and ilo_shader_select_kernel (each
carrying the compiler oracle). -/
inductive CacheOp where
  | create (mask : Nat)
  | add (pid : Nat)
  | remove (pid : Nat)
  | notify (pid : Nat)
  | upload (failures : List (Nat × Nat)) (offset : Nat) (incremental : Bool)
  | useVar (pid key : Nat) (compileOk : Bool) (ksize : Nat)
  | select (pid dirty key : Nat) (compileOk : Bool) (ksize : Nat)
deriving DecidableEq

/-- One public operation applied to the system. -/
def step (op : CacheOp) (sys : CacheSys) : CacheSys :=
  match op with
  | .create mask =>
    { sys with
      detached := ⟨sys.next_pid, [], 0, 0, none, 0, mask⟩ :: sys.detached,
      next_pid := sys.next_pid + 1 }
  | .add pid =>
    let m := sys.detached.filter (fun p => p.pid == pid)
    if m.isEmpty then sys
    else
      { sys with
        changed := m.map iloCacheAddReset ++ sys.changed,
        detached := sys.detached.filter (fun p => p.pid != pid),
        registered := pid :: sys.registered }
  | .remove pid =>
    { sys with
      shaders := sys.shaders.filter (fun p => p.pid != pid),
      changed := sys.changed.filter (fun p => p.pid != pid),
      detached := sys.shaders.filter (fun p => p.pid == pid)
                  ++ sys.changed.filter (fun p => p.pid == pid)
                  ++ sys.detached,
      registered := sys.registered.filter (fun i => i != pid) }
  | .notify pid => moveToChanged pid sys
  | .upload failures offset incremental =>
    let wok := fun o s => !(failures.contains (o, s))
    let r := uploadReal wok ⟨sys.shaders, sys.changed⟩ offset incremental
    { sys with shaders := r.1.shaders, changed := r.1.changed }
  | .useVar pid key compileOk ksize =>
    let upd := fun (p : IloShaderState) =>
      if p.pid == pid then (ilo_shader_state_use_variant p key compileOk ksize).1
      else p
    let added := (sys.shaders ++ sys.changed).any
      (fun p => p.pid == pid && (ilo_shader_state_use_variant p key compileOk ksize).2.1)
    let s2 := { sys with
      shaders := sys.shaders.map upd,
      changed := sys.changed.map upd,
      detached := sys.detached.map upd }
    if added then moveToChanged pid s2 else s2
  | .select pid dirty key compileOk ksize =>
    let upd := fun (p : IloShaderState) =>
      if p.pid == pid then (ilo_shader_select_kernel p dirty key compileOk ksize).1
      else p
    let added := (sys.shaders ++ sys.changed).any
      (fun p => p.pid == pid && !(p.non_orthogonal_states &&& dirty == 0)
                && (ilo_shader_state_use_variant p key compileOk ksize).2.1)
    let s2 := { sys with
      shaders := sys.shaders.map upd,
      changed := sys.changed.map upd,
      detached := sys.detached.map upd }
    if added then moveToChanged pid s2 else s2

/-- Run a sequence of public operations from the initial empty system. -/
def runOps (ops : List CacheOp) : CacheSys :=
  ops.foldl (fun s op => step op s) initSys

/-- Per-variant relation established by one pass of the upload loop:
identity and size are preserved, the uploaded flag is monotone, and a
variant that ends uploaded is either freshly written at a 64-byte aligned
offset or was left exactly as it was. -/
def GoRel (v v' : IloShader) : Prop :=
  v'.vid = v.vid ∧ v'.kernel_size = v.kernel_size ∧
  (v.uploaded = true → v'.uploaded = true) ∧
  (v'.uploaded = true → v'.cache_offset % 64 = 0 ∨ v' = v)

/-- How one upload pass rewrites a program: identity, fresh-vid counter,
dirty mask and variant identities are untouched, and each variant is
related to its pre-state by GoRel. -/
def ProgUpd (p q : IloShaderState) : Prop :=
  q.pid = p.pid ∧ q.next_vid = p.next_vid ∧
  q.non_orthogonal_states = p.non_orthogonal_states ∧
  q.variants.map (fun v => v.vid) = p.variants.map (fun v => v.vid) ∧
  List.Forall₂ GoRel p.variants q.variants

/-- Dry-run accounting of a list of programs, as the folds inside
ilo_shader_cache_get_upload_size perform it. -/
def sizeFold (incremental : Bool) (ps : List IloShaderState) (off : Nat) : Nat :=
  ps.foldl (fun o s => getUploadSizeVariants incremental s.variants o) off

/-- A write event is recorded in a list of programs when some variant of
some program is uploaded at exactly that offset with exactly that size. -/
def RecordedIn (e : WriteEvent) (ps : List IloShaderState) : Prop :=
  ∃ p ∈ ps, ∃ v ∈ p.variants, v.uploaded = true ∧
    v.cache_offset = e.off ∧ v.kernel_size = e.size

/-! ### Auxiliary definitions for claim statements -/

/-- All variants of a list of programs, in traversal order. -/
def variantsOf (ps : List IloShaderState) : List IloShader :=
  ps.foldr (fun p acc => p.variants ++ acc) []

/-- Concrete cache with a single changed program owning one 100-byte
not-yet-uploaded kernel. -/
def cexCacheC1 : IloShaderCache :=
  ⟨[], [⟨0, [⟨0, 0, 100, false, 0⟩], 1, 100, none, 1, 0⟩]⟩

/-- Concrete cache with a single resident program owning one 100-byte
already-uploaded kernel (cache_offset 0). -/
def cexCacheC2 : IloShaderCache :=
  ⟨[⟨0, [⟨0, 0, 100, true, 0⟩], 1, 100, none, 1, 0⟩], []⟩

/-! ### System-level invariants over the public operations -/

/-- Number of programs with identity i in a list. -/
def pcnt (i : Nat) (l : List IloShaderState) : Nat :=
  l.countP (fun p => p.pid == i)

/-- Per-program well-formedness: variant identities are unambiguous and
below the program's fresh-vid counter. -/
def ProgInv (p : IloShaderState) : Prop :=
  (∀ j, p.variants.countP (fun v => v.vid == j) ≤ 1) ∧
  (∀ v ∈ p.variants, v.vid < p.next_vid)

/-- System well-formedness: program identities are unambiguous across all
three zones and below the fresh-pid counter, each program is well formed,
and the ghost registered set is exactly the set of identities present in
the cache's two lists. -/
def SysInv (sys : CacheSys) : Prop :=
  (∀ i, pcnt i (allProgs sys) ≤ 1) ∧
  (∀ p ∈ allProgs sys, p.pid < sys.next_pid) ∧
  (∀ p ∈ allProgs sys, ProgInv p) ∧
  (∀ i, i ∈ sys.registered ↔ 1 ≤ pcnt i (sys.shaders ++ sys.changed))

/-! ### The 64-byte alignment invariant -/

/-- Every uploaded variant in the list records a 64-byte aligned offset. -/
def AlignedVars (vs : List IloShader) : Prop :=
  ∀ v ∈ vs, v.uploaded = true → v.cache_offset % 64 = 0

/-- Every uploaded variant anywhere in the system records a 64-byte
aligned cache offset. -/
def AlignedSys (sys : CacheSys) : Prop :=
  ∀ p ∈ allProgs sys, AlignedVars p.variants

/-! ### Uploaded-flag monotonicity of the public operations -/

/-- Relation between a program's variant lists across one non-add step:
every post variant either corresponds (by variant identity) to a pre
variant whose uploaded flag it dominates, or is entirely fresh (no pre
variant shares its identity). -/
def VarsMonoRel (vs ws : List IloShader) : Prop :=
  ∀ w ∈ ws, (∃ v ∈ vs, w.vid = v.vid ∧ (v.uploaded = true → w.uploaded = true)) ∨
    (∀ v ∈ vs, v.vid ≠ w.vid)

/-- Operation sequence whose final state holds a program with an uploaded
variant outside the cache (created, added, compiled, uploaded, removed). -/
def cexOpsC3 : List CacheOp :=
  [.create 3, .add 0, .useVar 0 5 true 100, .upload [] 0 true, .remove 0]

/-- The same sequence without the final remove, used to exercise the
amended monotonicity statement. -/
def cexOpsC3w : List CacheOp :=
  [.create 3, .add 0, .useVar 0 5 true 100, .upload [] 0 true]

/-- The program value reached by cexOpsC3w: one uploaded 100-byte variant. -/
def cexProgC3 : IloShaderState :=
  ⟨0, [⟨0, 5, 100, true, 0⟩], 1, 100, some 0, 1, 3⟩

/-- A program below the 4 KiB gc activation threshold: gc is a no-op on it. -/
def cexProgC4small : IloShaderState :=
  ⟨0, [⟨0, 0, 100, false, 0⟩], 1, 100, none, 1, 0⟩

/-- A program above the 4 KiB gc threshold (4400 bytes over three variants,
most recent at the head).  gc evicts the 2200- and 1200-byte tail variants,
stopping once total_size reaches 1000 ≤ 2048. -/
def cexProgC4 : IloShaderState :=
  ⟨0, [⟨0, 0, 1000, false, 0⟩, ⟨1, 1, 1200, false, 0⟩, ⟨2, 2, 2200, false, 0⟩],
    3, 4400, none, 3, 0⟩

/-! ### Theorems -/

/-! ### Generic helpers -/

theorem countP_le_one_inj {α : Type} {p : α → Bool} {l : List α}
    (h : l.countP p ≤ 1) {a b : α} (ha : a ∈ l) (hb : b ∈ l)
    (hpa : p a) (hpb : p b) : a = b := by
  induction l with
  | nil => cases ha
  | cons x xs ih =>
    have hc := List.countP_cons p x xs
    rcases List.mem_cons.mp ha with rfl | ha2
    · rcases List.mem_cons.mp hb with rfl | hb2
      · rfl
      · exfalso
        have h1 : 0 < xs.countP p := List.countP_pos_iff.mpr ⟨b, hb2, hpb⟩
        rw [if_pos hpa] at hc
        omega
    · rcases List.mem_cons.mp hb with rfl | hb2
      · exfalso
        have h1 : 0 < xs.countP p := List.countP_pos_iff.mpr ⟨a, ha2, hpa⟩
        rw [if_pos hpb] at hc
        omega
      · exact ih (by omega) ha2 hb2

theorem forall2_mem_right {α β : Type} {R : α → β → Prop}
    {l : List α} {l' : List β} (h : List.Forall₂ R l l') :
    ∀ b ∈ l', ∃ a ∈ l, R a b := by
  induction h with
  | nil => intro b hb; cases hb
  | cons hr _ ih =>
    intro b hb
    rcases List.mem_cons.mp hb with rfl | hb2
    · exact ⟨_, List.mem_cons_self _ _, hr⟩
    · obtain ⟨a, ha, har⟩ := ih b hb2
      exact ⟨a, List.mem_cons_of_mem _ ha, har⟩

/-! ### Alignment lemmas -/

theorem align_mod (off : Nat) : align off 64 % 64 = 0 :=
  Nat.mul_mod_left _ _

theorem align_ge (off : Nat) : off ≤ align off 64 := by
  unfold align
  have h1 := Nat.mod_add_div (off + 64 - 1) 64
  have h2 : (off + 64 - 1) % 64 < 64 := Nat.mod_lt _ (by omega)
  omega

theorem align_least (off m : Nat) (hdvd : m % 64 = 0) (hle : off ≤ m) :
    align off 64 ≤ m := by
  obtain ⟨q, rfl⟩ : ∃ q, m = 64 * q := by
    refine ⟨m / 64, ?_⟩
    omega
  unfold align
  have h1 : (off + 64 - 1) / 64 ≤ (64 * q + 63) / 64 := by
    apply Nat.div_le_div_right
    omega
  have h2 : (64 * q + 63) / 64 = q := by
    rw [Nat.add_comm, Nat.add_mul_div_left _ _ (by omega : 0 < 64)]
    simp
  calc (off + 64 - 1) / 64 * 64 ≤ q * 64 := Nat.mul_le_mul_right _ (by omega)
    _ = 64 * q := Nat.mul_comm _ _

/-! ### Lemmas about the per-program upload loop uploadShaderGo -/

/-- When every write succeeds, the final offset of the upload loop is
exactly the dry-run offset of getUploadSizeVariants (the skip conditions
incremental and uploaded vs not incremental or not uploaded are
complementary, and both paths advance by align(offset,64) + kernel_size). -/
theorem go_offset {wok : Nat → Nat → Bool} (h : ∀ o s, wok o s = true)
    (incremental : Bool) (vars : List IloShader) (off : Nat) :
    (uploadShaderGo wok incremental vars off).2.2 =
      some (getUploadSizeVariants incremental vars off) := by
  induction vars generalizing off with
  | nil => simp [uploadShaderGo, getUploadSizeVariants]
  | cons sh rest ih =>
    have hbr : (!incremental || !sh.uploaded) = !(incremental && sh.uploaded) := by
      cases incremental <;> cases sh.uploaded <;> rfl
    by_cases hsk : (incremental && sh.uploaded) = true
    · simp [uploadShaderGo, getUploadSizeVariants, hsk, hbr, ih]
    · simp [uploadShaderGo, getUploadSizeVariants, hsk, hbr, h, ih]

/-- The upload loop never changes which variants are in the list or their
identities: the vid sequence is untouched (also on a failed write, where
the C leaves the list as it was). -/
theorem go_vidmap (wok : Nat → Nat → Bool) (incremental : Bool)
    (vars : List IloShader) (off : Nat) :
    (uploadShaderGo wok incremental vars off).1.map (fun v => v.vid) =
      vars.map (fun v => v.vid) := by
  induction vars generalizing off with
  | nil => simp [uploadShaderGo]
  | cons sh rest ih =>
    by_cases hsk : (incremental && sh.uploaded) = true
    · simp [uploadShaderGo, hsk, ih]
    · by_cases hw : wok (align off 64) sh.kernel_size = true
      · simp [uploadShaderGo, hsk, hw, ih]
      · simp [uploadShaderGo, hsk, hw]

theorem go_rel (wok : Nat → Nat → Bool) (incremental : Bool)
    (vars : List IloShader) (off : Nat) :
    List.Forall₂ GoRel vars (uploadShaderGo wok incremental vars off).1 := by
  induction vars generalizing off with
  | nil => simp [uploadShaderGo]
  | cons sh rest ih =>
    by_cases hsk : (incremental && sh.uploaded) = true
    · simp only [uploadShaderGo, hsk, if_true]
      exact List.Forall₂.cons ⟨rfl, rfl, fun h => h, fun _ => Or.inr rfl⟩ (ih off)
    · simp only [uploadShaderGo, hsk, if_false, Bool.false_eq_true]
      by_cases hw : wok (align off 64) sh.kernel_size = true
      · simp only [hw, if_true]
        exact List.Forall₂.cons
          ⟨rfl, rfl, fun _ => rfl, fun _ => Or.inl (align_mod off)⟩ (ih _)
      · simp only [hw, if_false, Bool.false_eq_true]
        exact List.forall₂_same.mpr
          (fun v _ => ⟨rfl, rfl, fun h => h, fun _ => Or.inr rfl⟩)

/-- Incremental upload skips an already-uploaded variant without changing
any of its fields: positionally, every uploaded variant maps to itself. -/
theorem go_skip (wok : Nat → Nat → Bool) (vars : List IloShader) (off : Nat) :
    List.Forall₂ (fun v v' => v.uploaded = true → v' = v) vars
      (uploadShaderGo wok true vars off).1 := by
  induction vars generalizing off with
  | nil => simp [uploadShaderGo]
  | cons sh rest ih =>
    by_cases hup : sh.uploaded = true
    · simp only [uploadShaderGo, hup, Bool.and_self, if_true]
      exact List.Forall₂.cons (fun _ => rfl) (ih off)
    · have hupf : sh.uploaded = false := by
        revert hup; cases sh.uploaded <;> simp
      by_cases hw : wok (align off 64) sh.kernel_size = true
      · simp only [uploadShaderGo, hupf, Bool.and_false, Bool.false_eq_true,
          if_false, hw, if_true]
        exact List.Forall₂.cons (fun hc => absurd hc hup) (ih _)
      · have hwf : wok (align off 64) sh.kernel_size = false := by
          revert hw; cases wok (align off 64) sh.kernel_size <;> simp
        simp only [uploadShaderGo, hupf, Bool.and_false, Bool.false_eq_true,
          if_false, hwf]
        exact List.forall₂_same.mpr (fun v _ _ => rfl)

/-- With all writes succeeding and incremental = false, exactly one write
is performed per variant, in list order, of exactly kernel_size bytes. -/
theorem go_writes {wok : Nat → Nat → Bool} (h : ∀ o s, wok o s = true)
    (vars : List IloShader) (off : Nat) :
    List.Forall₂ (fun (v : IloShader) (e : WriteEvent) => e.size = v.kernel_size)
      vars (uploadShaderGo wok false vars off).2.1 := by
  induction vars generalizing off with
  | nil => simp [uploadShaderGo]
  | cons sh rest ih =>
    simp only [uploadShaderGo, Bool.false_and, Bool.false_eq_true, if_false, h, if_true]
    exact List.Forall₂.cons rfl (ih _)

/-- A run against a fallible write oracle performs a prefix of the writes
the all-success run performs: once a write fails nothing further is
attempted. -/
theorem go_prefix (wok : Nat → Nat → Bool) (incremental : Bool)
    (vars : List IloShader) (off : Nat) :
    ∃ t, (uploadShaderGo (fun _ _ => true) incremental vars off).2.1 =
      (uploadShaderGo wok incremental vars off).2.1 ++ t := by
  induction vars generalizing off with
  | nil => exact ⟨[], by simp [uploadShaderGo]⟩
  | cons sh rest ih =>
    by_cases hsk : (incremental && sh.uploaded) = true
    · simpa [uploadShaderGo, hsk] using ih off
    · by_cases hw : wok (align off 64) sh.kernel_size = true
      · obtain ⟨t, ht⟩ := ih (align off 64 + sh.kernel_size)
        exact ⟨t, by simp [uploadShaderGo, hsk, hw, ht]⟩
      · have hwf : wok (align off 64) sh.kernel_size = false := by
          revert hw; cases wok (align off 64) sh.kernel_size <;> simp
        refine ⟨⟨align off 64, sh.kernel_size⟩ ::
          (uploadShaderGo (fun _ _ => true) incremental rest
            (align off 64 + sh.kernel_size)).2.1, ?_⟩
        simp [uploadShaderGo, hsk, hwf]

/-- If the loop succeeded against a fallible oracle, the all-success run
is the very same computation. -/
theorem go_eq_of_success {wok : Nat → Nat → Bool} {incremental : Bool}
    {vars : List IloShader} {off off2 : Nat}
    (h : (uploadShaderGo wok incremental vars off).2.2 = some off2) :
    uploadShaderGo (fun _ _ => true) incremental vars off =
      uploadShaderGo wok incremental vars off := by
  induction vars generalizing off with
  | nil => simp [uploadShaderGo]
  | cons sh rest ih =>
    by_cases hsk : (incremental && sh.uploaded) = true
    · simp only [uploadShaderGo, hsk, if_true] at h ⊢
      rw [ih h]
    · by_cases hw : wok (align off 64) sh.kernel_size = true
      · simp only [uploadShaderGo, hsk, Bool.false_eq_true, if_false, hw, if_true] at h ⊢
        rw [ih h]
      · simp only [uploadShaderGo, hsk, Bool.false_eq_true, if_false, hw] at h
        exact Option.noConfusion h

/-- Every write the loop performs is recorded in the resulting variant
list: some variant ends uploaded at exactly that offset with exactly that
size (the no-rollback property at the variant level). -/
theorem go_recorded (wok : Nat → Nat → Bool) (incremental : Bool)
    (vars : List IloShader) (off : Nat) :
    ∀ e ∈ (uploadShaderGo wok incremental vars off).2.1,
      ∃ v' ∈ (uploadShaderGo wok incremental vars off).1,
        v'.uploaded = true ∧ v'.cache_offset = e.off ∧ v'.kernel_size = e.size := by
  induction vars generalizing off with
  | nil => simp [uploadShaderGo]
  | cons sh rest ih =>
    intro e he
    by_cases hsk : (incremental && sh.uploaded) = true
    · simp only [uploadShaderGo, hsk, if_true] at he ⊢
      obtain ⟨v', hv', hrec⟩ := ih off e he
      exact ⟨v', List.mem_cons_of_mem _ hv', hrec⟩
    · by_cases hw : wok (align off 64) sh.kernel_size = true
      · simp only [uploadShaderGo, hsk, Bool.false_eq_true, if_false, hw, if_true] at he ⊢
        rcases List.mem_cons.mp he with rfl | he2
        · exact ⟨_, List.mem_cons_self _ _, rfl, rfl, rfl⟩
        · obtain ⟨v', hv', hrec⟩ := ih _ e he2
          exact ⟨v', List.mem_cons_of_mem _ hv', hrec⟩
      · simp only [uploadShaderGo, hsk, Bool.false_eq_true, if_false, hw] at he
        cases he

/-- The dry-run offset never decreases. -/
theorem size_ge (incremental : Bool) (vars : List IloShader) (off : Nat) :
    off ≤ getUploadSizeVariants incremental vars off := by
  induction vars generalizing off with
  | nil => simp [getUploadSizeVariants]
  | cons sh rest ih =>
    by_cases hc : (!incremental || !sh.uploaded) = true
    · simp only [getUploadSizeVariants, hc, if_true]
      calc off ≤ align off 64 := align_ge off
        _ ≤ align off 64 + sh.kernel_size := Nat.le_add_right _ _
        _ ≤ _ := ih _
    · simp only [getUploadSizeVariants, hc, Bool.false_eq_true, if_false]
      exact ih off

/-! ### Lemmas about the two program-list upload passes -/

theorem GoRel_refl (v : IloShader) : GoRel v v :=
  ⟨rfl, rfl, fun h => h, fun _ => Or.inr rfl⟩

theorem GoRel_trans {a b c : IloShader} (h1 : GoRel a b) (h2 : GoRel b c) :
    GoRel a c := by
  obtain ⟨i1, k1, u1, o1⟩ := h1
  obtain ⟨i2, k2, u2, o2⟩ := h2
  refine ⟨i2.trans i1, k2.trans k1, fun h => u2 (u1 h), fun h => ?_⟩
  rcases o2 h with ho | rfl
  · exact Or.inl ho
  · exact o1 h

theorem forall2_trans {α : Type} {R : α → α → Prop}
    (ht : ∀ a b c, R a b → R b c → R a c) :
    ∀ {l1 l2 l3 : List α}, List.Forall₂ R l1 l2 → List.Forall₂ R l2 l3 →
      List.Forall₂ R l1 l3 := by
  intro l1 l2 l3 h12
  induction h12 generalizing l3 with
  | nil => intro h23; cases h23; exact List.Forall₂.nil
  | cons hr _ ih =>
    intro h23
    cases h23 with
    | cons hr2 htl2 => exact List.Forall₂.cons (ht _ _ _ hr hr2) (ih htl2)

theorem ProgUpd_refl (p : IloShaderState) : ProgUpd p p :=
  ⟨rfl, rfl, rfl, rfl, List.forall₂_same.mpr (fun v _ => GoRel_refl v)⟩

theorem ProgUpd_trans {p q r : IloShaderState}
    (h1 : ProgUpd p q) (h2 : ProgUpd q r) : ProgUpd p r := by
  obtain ⟨a1, b1, c1, d1, e1⟩ := h1
  obtain ⟨a2, b2, c2, d2, e2⟩ := h2
  exact ⟨a2.trans a1, b2.trans b1, c2.trans c1, d2.trans d1,
    @forall2_trans _ GoRel (fun _ _ _ hab hbc => GoRel_trans hab hbc) _ _ _ e1 e2⟩

theorem upload_shader_ProgUpd (wok : Nat → Nat → Bool) (incremental : Bool)
    (p : IloShaderState) (off : Nat) :
    ProgUpd p { p with variants := (uploadShaderGo wok incremental p.variants off).1 } :=
  ⟨rfl, rfl, rfl, go_vidmap wok incremental p.variants off,
    go_rel wok incremental p.variants off⟩

/-- Every program coming out of the resident pass is an input program
rewritten by (at most) one upload-loop pass. -/
theorem progs_mem (wok : Nat → Nat → Bool) (incremental : Bool)
    (ps : List IloShaderState) (off : Nat) :
    ∀ q ∈ (uploadProgs wok incremental ps off).1,
      ∃ p ∈ ps, ProgUpd p q := by
  induction ps generalizing off with
  | nil => simp [uploadProgs]
  | cons p rest ih =>
    intro q hq
    simp only [uploadProgs] at hq
    cases hr : (uploadShaderGo wok incremental p.variants off).2.2 with
    | none =>
      rw [hr] at hq
      rcases List.mem_cons.mp hq with rfl | hq2
      · exact ⟨p, List.mem_cons_self _ _, upload_shader_ProgUpd wok incremental p off⟩
      · exact ⟨q, List.mem_cons_of_mem _ hq2, ProgUpd_refl q⟩
    | some off2 =>
      rw [hr] at hq
      rcases List.mem_cons.mp hq with rfl | hq2
      · exact ⟨p, List.mem_cons_self _ _, upload_shader_ProgUpd wok incremental p off⟩
      · obtain ⟨p0, hp0, hu⟩ := ih off2 q hq2
        exact ⟨p0, List.mem_cons_of_mem _ hp0, hu⟩

/-- Every program coming out of the changed pass (on either side) is an
input program (accumulated resident or changed) rewritten by at most one
upload-loop pass. -/
theorem changed_mem (wok : Nat → Nat → Bool) (incremental : Bool)
    (acc ps : List IloShaderState) (off : Nat) :
    ∀ q ∈ (uploadChanged wok incremental acc ps off).1 ++
          (uploadChanged wok incremental acc ps off).2.1,
      ∃ p ∈ acc ++ ps, ProgUpd p q := by
  induction ps generalizing acc off with
  | nil =>
    intro q hq
    simp only [uploadChanged, List.append_nil] at hq ⊢
    exact ⟨q, hq, ProgUpd_refl q⟩
  | cons p rest ih =>
    intro q hq
    simp only [uploadChanged] at hq
    cases hr : (uploadShaderGo wok incremental p.variants off).2.2 with
    | none =>
      rw [hr] at hq
      simp only [List.mem_append, List.mem_cons] at hq
      rcases hq with hacc | rfl | hrest
      · exact ⟨q, List.mem_append_left _ hacc, ProgUpd_refl q⟩
      · exact ⟨p, List.mem_append_right _ (List.mem_cons_self _ _),
          upload_shader_ProgUpd wok incremental p off⟩
      · exact ⟨q, List.mem_append_right _ (List.mem_cons_of_mem _ hrest),
          ProgUpd_refl q⟩
    | some off2 =>
      rw [hr] at hq
      obtain ⟨p0, hp0, hu⟩ := ih _ off2 q hq
      rcases List.mem_append.mp hp0 with hl | hr2
      · rcases List.mem_cons.mp hl with rfl | hacc
        · exact ⟨p, List.mem_append_right _ (List.mem_cons_self _ _),
            ProgUpd_trans (upload_shader_ProgUpd wok incremental p off) hu⟩
        · exact ⟨p0, List.mem_append_left _ hacc, hu⟩
      · exact ⟨p0, List.mem_append_right _ (List.mem_cons_of_mem _ hr2), hu⟩

theorem sizeFold_nil (incremental : Bool) (off : Nat) :
    sizeFold incremental [] off = off := rfl

theorem sizeFold_cons (incremental : Bool) (p : IloShaderState)
    (rest : List IloShaderState) (off : Nat) :
    sizeFold incremental (p :: rest) off =
      sizeFold incremental rest (getUploadSizeVariants incremental p.variants off) := rfl

theorem sizeFold_ge (incremental : Bool) (ps : List IloShaderState) (off : Nat) :
    off ≤ sizeFold incremental ps off := by
  induction ps generalizing off with
  | nil => exact Nat.le_refl _
  | cons p rest ih =>
    rw [sizeFold_cons]
    exact Nat.le_trans (size_ge incremental p.variants off) (ih _)

/-- With all writes succeeding, the resident pass ends exactly at the
dry-run offset over the same programs. -/
theorem progs_offset {wok : Nat → Nat → Bool} (h : ∀ o s, wok o s = true)
    (incremental : Bool) (ps : List IloShaderState) (off : Nat) :
    (uploadProgs wok incremental ps off).2.2 =
      some (sizeFold incremental ps off) := by
  induction ps generalizing off with
  | nil => simp [uploadProgs, sizeFold]
  | cons p rest ih =>
    simp only [uploadProgs, go_offset h, sizeFold_cons]
    exact ih _

/-- With all writes succeeding, the changed pass ends exactly at the
dry-run offset over the changed programs. -/
theorem changed_offset {wok : Nat → Nat → Bool} (h : ∀ o s, wok o s = true)
    (incremental : Bool) (acc ps : List IloShaderState) (off : Nat) :
    (uploadChanged wok incremental acc ps off).2.2.2 =
      some (sizeFold incremental ps off) := by
  induction ps generalizing acc off with
  | nil => simp [uploadChanged, sizeFold]
  | cons p rest ih =>
    simp only [uploadChanged, go_offset h, sizeFold_cons]
    exact ih _ _

/-- A successful changed pass leaves the changed list empty (every program
was moved to the resident list, as LIST_FOR_EACH_ENTRY_SAFE + list_del +
list_add do). -/
theorem changed_empty_of_success {wok : Nat → Nat → Bool} {incremental : Bool}
    {acc ps : List IloShaderState} {off off2 : Nat}
    (h : (uploadChanged wok incremental acc ps off).2.2.2 = some off2) :
    (uploadChanged wok incremental acc ps off).2.1 = [] := by
  induction ps generalizing acc off with
  | nil => simp [uploadChanged]
  | cons p rest ih =>
    simp only [uploadChanged] at h ⊢
    cases hr : (uploadShaderGo wok incremental p.variants off).2.2 with
    | none =>
      rw [hr] at h
      exact Option.noConfusion h
    | some o2 =>
      rw [hr] at h
      exact ih h

/-- A failed changed pass leaves a suffix of the changed list (by program
identity): the programs whose upload completed were moved out, and the
failing program and its successors remain. -/
theorem changed_suffix (wok : Nat → Nat → Bool) (incremental : Bool)
    (acc ps : List IloShaderState) (off : Nat) :
    ∃ k, (uploadChanged wok incremental acc ps off).2.1.map (fun p => p.pid) =
      (ps.map (fun p => p.pid)).drop k := by
  induction ps generalizing acc off with
  | nil => exact ⟨0, by simp [uploadChanged]⟩
  | cons p rest ih =>
    simp only [uploadChanged]
    cases hr : (uploadShaderGo wok incremental p.variants off).2.2 with
    | none => exact ⟨0, by simp⟩
    | some o2 =>
      obtain ⟨k, hk⟩ := ih (({ p with variants := (uploadShaderGo wok incremental p.variants off).1 }) :: acc) o2
      exact ⟨k + 1, by simpa using hk⟩

/-- Programs already accumulated on the resident side stay there. -/
theorem changed_acc_mem (wok : Nat → Nat → Bool) (incremental : Bool)
    (acc ps : List IloShaderState) (off : Nat) :
    ∀ q ∈ acc, q ∈ (uploadChanged wok incremental acc ps off).1 := by
  induction ps generalizing acc off with
  | nil => intro q hq; simpa [uploadChanged] using hq
  | cons p rest ih =>
    intro q hq
    simp only [uploadChanged]
    cases hr : (uploadShaderGo wok incremental p.variants off).2.2 with
    | none => exact hq
    | some o2 => exact ih _ o2 q (List.mem_cons_of_mem _ hq)

/-- Every write the resident pass performs is recorded in its output. -/
theorem progs_recorded (wok : Nat → Nat → Bool) (incremental : Bool)
    (ps : List IloShaderState) (off : Nat) :
    ∀ e ∈ (uploadProgs wok incremental ps off).2.1,
      RecordedIn e (uploadProgs wok incremental ps off).1 := by
  induction ps generalizing off with
  | nil => simp [uploadProgs]
  | cons p rest ih =>
    intro e he
    simp only [uploadProgs] at he ⊢
    cases hr : (uploadShaderGo wok incremental p.variants off).2.2 with
    | none =>
      rw [hr] at he
      obtain ⟨v, hv, hrec⟩ := go_recorded wok incremental p.variants off e he
      exact ⟨_, List.mem_cons_self _ _, v, hv, hrec⟩
    | some o2 =>
      rw [hr] at he
      rcases List.mem_append.mp he with h1 | h2
      · obtain ⟨v, hv, hrec⟩ := go_recorded wok incremental p.variants off e h1
        exact ⟨_, List.mem_cons_self _ _, v, hv, hrec⟩
      · obtain ⟨q, hq, hv⟩ := ih o2 e h2
        exact ⟨q, List.mem_cons_of_mem _ hq, hv⟩

/-- Every write the changed pass performs is recorded in its output (on the
resident side for completed programs, on the remaining changed side for
the partially uploaded failing program). -/
theorem changed_recorded (wok : Nat → Nat → Bool) (incremental : Bool)
    (acc ps : List IloShaderState) (off : Nat) :
    ∀ e ∈ (uploadChanged wok incremental acc ps off).2.2.1,
      RecordedIn e ((uploadChanged wok incremental acc ps off).1 ++
        (uploadChanged wok incremental acc ps off).2.1) := by
  induction ps generalizing acc off with
  | nil => simp [uploadChanged]
  | cons p rest ih =>
    intro e he
    simp only [uploadChanged] at he ⊢
    cases hr : (uploadShaderGo wok incremental p.variants off).2.2 with
    | none =>
      rw [hr] at he
      obtain ⟨v, hv, hrec⟩ := go_recorded wok incremental p.variants off e he
      exact ⟨_, List.mem_append_right _ (List.mem_cons_self _ _), v, hv, hrec⟩
    | some o2 =>
      rw [hr] at he
      rcases List.mem_append.mp he with h1 | h2
      · obtain ⟨v, hv, hrec⟩ := go_recorded wok incremental p.variants off e h1
        refine ⟨{ p with variants := (uploadShaderGo wok incremental p.variants off).1 },
          List.mem_append_left _ ?_, v, hv, hrec⟩
        exact changed_acc_mem wok incremental _ rest o2 _ (List.mem_cons_self _ _)
      · exact ih _ o2 e h2

theorem go_true_some (incremental : Bool) (vars : List IloShader) (off : Nat) :
    (uploadShaderGo (fun _ _ => true) incremental vars off).2.2 =
      some (getUploadSizeVariants incremental vars off) :=
  go_offset (fun _ _ => rfl) incremental vars off

/-- A resident pass that succeeded against a fallible oracle coincides with
the all-success run. -/
theorem progs_eq_of_success {wok : Nat → Nat → Bool} {incremental : Bool}
    {ps : List IloShaderState} {off off2 : Nat}
    (h : (uploadProgs wok incremental ps off).2.2 = some off2) :
    uploadProgs (fun _ _ => true) incremental ps off =
      uploadProgs wok incremental ps off := by
  induction ps generalizing off with
  | nil => rfl
  | cons p rest ih =>
    simp only [uploadProgs] at h ⊢
    cases hr : (uploadShaderGo wok incremental p.variants off).2.2 with
    | none =>
      rw [hr] at h
      exact Option.noConfusion h
    | some o2 =>
      rw [hr] at h
      have h2 : (uploadProgs wok incremental rest o2).2.2 = some off2 := h
      simp only [go_eq_of_success hr, hr, ih h2]

/-- A changed pass that succeeded against a fallible oracle coincides with
the all-success run. -/
theorem changed_eq_of_success {wok : Nat → Nat → Bool} {incremental : Bool}
    {acc ps : List IloShaderState} {off off2 : Nat}
    (h : (uploadChanged wok incremental acc ps off).2.2.2 = some off2) :
    uploadChanged (fun _ _ => true) incremental acc ps off =
      uploadChanged wok incremental acc ps off := by
  induction ps generalizing acc off with
  | nil => rfl
  | cons p rest ih =>
    simp only [uploadChanged] at h ⊢
    cases hr : (uploadShaderGo wok incremental p.variants off).2.2 with
    | none =>
      rw [hr] at h
      exact Option.noConfusion h
    | some o2 =>
      rw [hr] at h
      have h2 : (uploadChanged wok incremental
        ({ p with variants := (uploadShaderGo wok incremental p.variants off).1 } :: acc)
        rest o2).2.2.2 = some off2 := h
      simp only [go_eq_of_success hr, hr, ih h2]

/-- The writes a fallible resident pass performs are a prefix of the writes
of the all-success pass: nothing further is attempted after a failure. -/
theorem progs_prefix (wok : Nat → Nat → Bool) (incremental : Bool)
    (ps : List IloShaderState) (off : Nat) :
    ∃ t, (uploadProgs (fun _ _ => true) incremental ps off).2.1 =
      (uploadProgs wok incremental ps off).2.1 ++ t := by
  induction ps generalizing off with
  | nil => exact ⟨[], rfl⟩
  | cons p rest ih =>
    cases hr : (uploadShaderGo wok incremental p.variants off).2.2 with
    | some o2 =>
      obtain ⟨t, ht⟩ := ih o2
      refine ⟨t, ?_⟩
      simp only [uploadProgs, go_eq_of_success hr, hr]
      rw [ht, List.append_assoc]
    | none =>
      obtain ⟨t0, ht0⟩ := go_prefix wok incremental p.variants off
      refine ⟨t0 ++ (uploadProgs (fun _ _ => true) incremental rest
        (getUploadSizeVariants incremental p.variants off)).2.1, ?_⟩
      simp only [uploadProgs, go_true_some, hr]
      rw [ht0, List.append_assoc]

/-- The writes a fallible changed pass performs are a prefix of the writes
of the all-success pass. -/
theorem changed_prefix (wok : Nat → Nat → Bool) (incremental : Bool)
    (acc ps : List IloShaderState) (off : Nat) :
    ∃ t, (uploadChanged (fun _ _ => true) incremental acc ps off).2.2.1 =
      (uploadChanged wok incremental acc ps off).2.2.1 ++ t := by
  induction ps generalizing acc off with
  | nil => exact ⟨[], rfl⟩
  | cons p rest ih =>
    cases hr : (uploadShaderGo wok incremental p.variants off).2.2 with
    | some o2 =>
      obtain ⟨t, ht⟩ := ih
        ({ p with variants := (uploadShaderGo wok incremental p.variants off).1 } :: acc) o2
      refine ⟨t, ?_⟩
      simp only [uploadChanged, go_eq_of_success hr, hr]
      rw [ht, List.append_assoc]
    | none =>
      obtain ⟨t0, ht0⟩ := go_prefix wok incremental p.variants off
      refine ⟨t0 ++ (uploadChanged (fun _ _ => true) incremental
        ({ p with variants := (uploadShaderGo (fun _ _ => true) incremental p.variants off).1 } :: acc)
        rest (getUploadSizeVariants incremental p.variants off)).2.2.1, ?_⟩
      simp only [uploadChanged, go_true_some, hr]
      rw [ht0, List.append_assoc]

/-- The resident pass preserves the program identity sequence. -/
theorem progs_pidmap (wok : Nat → Nat → Bool) (incremental : Bool)
    (ps : List IloShaderState) (off : Nat) :
    (uploadProgs wok incremental ps off).1.map (fun p => p.pid) =
      ps.map (fun p => p.pid) := by
  induction ps generalizing off with
  | nil => rfl
  | cons p rest ih =>
    cases hr : (uploadShaderGo wok incremental p.variants off).2.2 with
    | none => simp [uploadProgs, hr]
    | some o2 => simp [uploadProgs, hr, ih]

/-- The changed pass only moves programs between the two lists: the union
of program identities is preserved up to permutation. -/
theorem changed_pid_perm (wok : Nat → Nat → Bool) (incremental : Bool)
    (acc ps : List IloShaderState) (off : Nat) :
    List.Perm
      (((uploadChanged wok incremental acc ps off).1 ++
        (uploadChanged wok incremental acc ps off).2.1).map (fun p => p.pid))
      ((acc ++ ps).map (fun p => p.pid)) := by
  induction ps generalizing acc off with
  | nil => simp [uploadChanged]
  | cons p rest ih =>
    cases hr : (uploadShaderGo wok incremental p.variants off).2.2 with
    | none =>
      simp [uploadChanged, hr]
    | some o2 =>
      simp only [uploadChanged, hr]
      refine List.Perm.trans
        (ih ({ p with variants := (uploadShaderGo wok incremental p.variants off).1 } :: acc) o2)
        ?_
      simp only [List.cons_append, List.map_cons, List.map_append]
      exact List.perm_middle.symm

theorem forall2_append {α β : Type} {R : α → β → Prop}
    {l1 l3 : List α} {l2 l4 : List β}
    (h1 : List.Forall₂ R l1 l2) (h2 : List.Forall₂ R l3 l4) :
    List.Forall₂ R (l1 ++ l3) (l2 ++ l4) := by
  induction h1 with
  | nil => exact h2
  | cons hr _ ih => exact List.Forall₂.cons hr ih

theorem variantsOf_cons (p : IloShaderState) (rest : List IloShaderState) :
    variantsOf (p :: rest) = p.variants ++ variantsOf rest := rfl

/-- Unfolding of ilo_shader_cache_upload for a real buffer in incremental
mode: only the changed pass runs. -/
theorem upload_incremental_eq (wok : Nat → Nat → Bool) (shc : IloShaderCache)
    (off : Nat) :
    ilo_shader_cache_upload wok shc true off true =
      ⟨⟨(uploadChanged wok true shc.shaders shc.changed off).1,
        (uploadChanged wok true shc.shaders shc.changed off).2.1⟩,
       (uploadChanged wok true shc.shaders shc.changed off).2.2.1,
       match (uploadChanged wok true shc.shaders shc.changed off).2.2.2 with
       | some off2 => Int.ofNat (off2 - off)
       | none => -1⟩ := rfl

/-! ### Claim theorems -/

/-- Claim C10: for every cache state, start offset and incremental flag, a
dry-run upload (null buffer) leaves the whole cache state unchanged —
no uploaded flag, no cache_offset, no list membership — and performs no
buffer writes. -/
theorem claim_C10_dry_run_frame (wok : Nat → Nat → Bool) (shc : IloShaderCache)
    (offset : Nat) (incremental : Bool) :
    (ilo_shader_cache_upload wok shc false offset incremental).shc = shc ∧
    (ilo_shader_cache_upload wok shc false offset incremental).writes = [] :=
  ⟨rfl, rfl⟩

/-- Claim C1 counterexample: on a cache holding one changed program with a
single 100-byte kernel, the dry run returns 228 (100 bytes plus the
128-byte prefetch pad) while the real upload writes exactly 100 bytes, so
the returned size does not equal the number of bytes actually written. -/
theorem claim_C1_counterexample :
    ilo_shader_cache_get_upload_size cexCacheC1 0 false = 228 ∧
    ((ilo_shader_cache_upload (fun _ _ => true) cexCacheC1 true 0 false).writes.map
       (fun e => e.size)).sum = 100 ∧
    (228 : Nat) ≠ 100 := by
  refine ⟨by decide, by decide, by decide⟩

/-- Claim C1 (amended): for an all-success write oracle, the dry-run size
equals the offset advance returned by the real upload from the same
pre-state, plus the fixed 128-byte prefetch pad exactly when that advance
is nonzero (the advance counts 64-byte alignment gaps as well as kernel
bytes, so it can exceed the bytes physically written). -/
theorem claim_C1_amended (wok : Nat → Nat → Bool) (shc : IloShaderCache)
    (offset : Nat) (incremental : Bool) (h : ∀ o s, wok o s = true) :
    ∃ n : Nat,
      (ilo_shader_cache_upload wok shc true offset incremental).ret = Int.ofNat n ∧
      ilo_shader_cache_get_upload_size shc offset incremental =
        n + (if n = 0 then 0 else 128) := by
  cases incremental with
  | true =>
    refine ⟨sizeFold true shc.changed offset - offset, ?_, ?_⟩
    · rw [upload_incremental_eq, changed_offset h]
    · have hge : offset ≤ sizeFold true shc.changed offset :=
        sizeFold_ge true shc.changed offset
      show (if offset < sizeFold true shc.changed offset
            then sizeFold true shc.changed offset + 128
            else sizeFold true shc.changed offset) - offset = _
      by_cases hlt : offset < sizeFold true shc.changed offset
      · rw [if_pos hlt, if_neg (by omega)]
        omega
      · rw [if_neg hlt, if_pos (by omega)]
        omega
  | false =>
    refine ⟨sizeFold false shc.changed (sizeFold false shc.shaders offset) - offset,
      ?_, ?_⟩
    · show (match (uploadReal wok shc offset false).2.2 with
          | some off2 => Int.ofNat (off2 - offset)
          | none => (-1 : Int)) = _
      have h1 : (uploadProgs wok false shc.shaders offset).2.2 =
          some (sizeFold false shc.shaders offset) := progs_offset h false _ offset
      show (match (match (uploadProgs wok false shc.shaders offset).2.2 with
          | none => ((⟨(uploadProgs wok false shc.shaders offset).1, shc.changed⟩ : IloShaderCache),
              (uploadProgs wok false shc.shaders offset).2.1, (none : Option Nat))
          | some off2 =>
            (⟨(uploadChanged wok false (uploadProgs wok false shc.shaders offset).1 shc.changed off2).1,
              (uploadChanged wok false (uploadProgs wok false shc.shaders offset).1 shc.changed off2).2.1⟩,
              (uploadProgs wok false shc.shaders offset).2.1 ++
                (uploadChanged wok false (uploadProgs wok false shc.shaders offset).1 shc.changed off2).2.2.1,
              (uploadChanged wok false (uploadProgs wok false shc.shaders offset).1 shc.changed off2).2.2.2)).2.2 with
          | some off2 => Int.ofNat (off2 - offset)
          | none => (-1 : Int)) = _
      rw [h1]
      show (match (uploadChanged wok false (uploadProgs wok false shc.shaders offset).1
          shc.changed (sizeFold false shc.shaders offset)).2.2.2 with
          | some off2 => Int.ofNat (off2 - offset)
          | none => (-1 : Int)) = _
      rw [changed_offset h]
    · have hge1 : offset ≤ sizeFold false shc.shaders offset :=
        sizeFold_ge false shc.shaders offset
      have hge2 : sizeFold false shc.shaders offset ≤
          sizeFold false shc.changed (sizeFold false shc.shaders offset) :=
        sizeFold_ge false shc.changed _
      show (if offset < sizeFold false shc.changed (sizeFold false shc.shaders offset)
            then sizeFold false shc.changed (sizeFold false shc.shaders offset) + 128
            else sizeFold false shc.changed (sizeFold false shc.shaders offset)) - offset = _
      by_cases hlt : offset < sizeFold false shc.changed (sizeFold false shc.shaders offset)
      · rw [if_pos hlt, if_neg (by omega)]
        omega
      · rw [if_neg hlt, if_pos (by omega)]
        omega

theorem claim_C1_amended_witness :
    ∃ n : Nat,
      (ilo_shader_cache_upload (fun _ _ => true) cexCacheC1 true 0 false).ret = Int.ofNat n ∧
      ilo_shader_cache_get_upload_size cexCacheC1 0 false =
        n + (if n = 0 then 0 else 128) :=
  claim_C1_amended (fun _ _ => true) cexCacheC1 0 false (fun _ _ => rfl)

/-- Claim C2 counterexample: a cache whose single resident program has its
only kernel already uploaded.  The claim predicts the non-incremental
first pass rewrites nothing (no kernel has uploaded = false), but the code
writes that kernel again: upload(bo, 0, false) performs one 100-byte
write. -/
theorem claim_C2_counterexample :
    (∀ p ∈ cexCacheC2.shaders, ∀ v ∈ p.variants, v.uploaded = true) ∧
    (ilo_shader_cache_upload (fun _ _ => true) cexCacheC2 true 0 false).writes =
      [⟨0, 100⟩] := by
  refine ⟨by decide, by decide⟩

/-- Claim C2 (amended): with a real buffer and incremental = false, the
first pass over the resident list writes every kernel of every resident
program — the uploaded flag is ignored in this mode — one write per
variant, in order, of exactly kernel_size bytes. -/
theorem claim_C2_amended (wok : Nat → Nat → Bool) (shc : IloShaderCache)
    (offset : Nat) (h : ∀ o s, wok o s = true) :
    List.Forall₂ (fun (v : IloShader) (e : WriteEvent) => e.size = v.kernel_size)
      (variantsOf shc.shaders)
      (uploadProgs wok false shc.shaders offset).2.1 := by
  generalize shc.shaders = ps
  induction ps generalizing offset with
  | nil => exact List.Forall₂.nil
  | cons p rest ih =>
    rw [variantsOf_cons]
    have h1 : (uploadShaderGo wok false p.variants offset).2.2 =
        some (getUploadSizeVariants false p.variants offset) := go_offset h false _ offset
    simp only [uploadProgs, h1]
    exact forall2_append (go_writes h p.variants offset) (ih _)

theorem claim_C2_amended_witness :
    List.Forall₂ (fun (v : IloShader) (e : WriteEvent) => e.size = v.kernel_size)
      (variantsOf cexCacheC2.shaders)
      (uploadProgs (fun _ _ => true) false cexCacheC2.shaders 0).2.1 :=
  claim_C2_amended (fun _ _ => true) cexCacheC2 0 (fun _ _ => rfl)

/-- Claim C7: if a real-buffer incremental upload succeeds (non-negative
return), an immediately following real-buffer incremental upload — at any
offset and against any write oracle — performs zero buffer writes and
returns 0 (every relevant variant is already uploaded and the changed
list was emptied). -/
theorem claim_C7_incremental_idempotent (wok1 wok2 : Nat → Nat → Bool)
    (shc : IloShaderCache) (off1 off2 : Nat)
    (h : 0 ≤ (ilo_shader_cache_upload wok1 shc true off1 true).ret) :
    (ilo_shader_cache_upload wok2
        (ilo_shader_cache_upload wok1 shc true off1 true).shc true off2 true).writes = [] ∧
    (ilo_shader_cache_upload wok2
        (ilo_shader_cache_upload wok1 shc true off1 true).shc true off2 true).ret = 0 := by
  rw [upload_incremental_eq] at h ⊢
  cases hu : (uploadChanged wok1 true shc.shaders shc.changed off1).2.2.2 with
  | none =>
    rw [hu] at h
    exfalso
    have h2 : (0 : Int) ≤ -1 := h
    omega
  | some o2 =>
    have hempty : (uploadChanged wok1 true shc.shaders shc.changed off1).2.1 = [] :=
      changed_empty_of_success hu
    rw [upload_incremental_eq, hempty]
    refine ⟨rfl, ?_⟩
    show Int.ofNat (off2 - off2) = 0
    simp

theorem claim_C7_witness :
    0 ≤ (ilo_shader_cache_upload (fun _ _ => true) cexCacheC1 true 0 true).ret ∧
    (ilo_shader_cache_upload (fun _ _ => true)
        (ilo_shader_cache_upload (fun _ _ => true) cexCacheC1 true 0 true).shc true 7 true).writes = [] ∧
    (ilo_shader_cache_upload (fun _ _ => true)
        (ilo_shader_cache_upload (fun _ _ => true) cexCacheC1 true 0 true).shc true 7 true).ret = 0 :=
  ⟨by decide, claim_C7_incremental_idempotent (fun _ _ => true) (fun _ _ => true)
    cexCacheC1 0 7 (by decide)⟩

/-- A write event is recorded in a superset of programs. -/
theorem RecordedIn_mono {e : WriteEvent} {ps qs : List IloShaderState}
    (h : RecordedIn e ps) (hsub : ∀ q ∈ ps, q ∈ qs) : RecordedIn e qs := by
  obtain ⟨p, hp, v, hv, hrec⟩ := h
  exact ⟨p, hsub p hp, v, hv, hrec⟩

/-- Claim C8: if any single buffer write fails during a real-buffer upload,
the call returns -1; the writes it performed are a prefix of the writes
the fully successful run would perform (nothing further was attempted);
every variant written before the failure is recorded uploaded at its
written offset and size in the post state (no rollback); and the programs
whose upload did not complete — the failing one and all its successors —
remain on the changed list (the post changed list is a suffix of the
pre-state changed list). -/
theorem claim_C8_failure (wok : Nat → Nat → Bool) (shc : IloShaderCache)
    (offset : Nat) (incremental : Bool)
    (h : (ilo_shader_cache_upload wok shc true offset incremental).ret < 0) :
    (ilo_shader_cache_upload wok shc true offset incremental).ret = -1 ∧
    (∃ t, (ilo_shader_cache_upload (fun _ _ => true) shc true offset incremental).writes =
      (ilo_shader_cache_upload wok shc true offset incremental).writes ++ t) ∧
    (∀ e ∈ (ilo_shader_cache_upload wok shc true offset incremental).writes,
      RecordedIn e ((ilo_shader_cache_upload wok shc true offset incremental).shc.shaders ++
        (ilo_shader_cache_upload wok shc true offset incremental).shc.changed)) ∧
    (∃ k, (ilo_shader_cache_upload wok shc true offset incremental).shc.changed.map
        (fun p => p.pid) = (shc.changed.map (fun p => p.pid)).drop k) := by
  cases incremental with
  | true =>
    rw [upload_incremental_eq] at h ⊢
    rw [upload_incremental_eq]
    cases hu : (uploadChanged wok true shc.shaders shc.changed offset).2.2.2 with
    | some o2 =>
      rw [hu] at h
      exfalso
      have h2 : ((o2 - offset : Nat) : Int) < 0 := h
      omega
    | none =>
      refine ⟨rfl, ?_, ?_, ?_⟩
      · exact changed_prefix wok true shc.shaders shc.changed offset
      · exact changed_recorded wok true shc.shaders shc.changed offset
      · exact changed_suffix wok true shc.shaders shc.changed offset
  | false =>
    cases hr : (uploadProgs wok false shc.shaders offset).2.2 with
    | none =>
      have hret : (ilo_shader_cache_upload wok shc true offset false).ret = -1 := by
        show (match (uploadReal wok shc offset false).2.2 with
            | some off2 => Int.ofNat (off2 - offset)
            | none => (-1 : Int)) = -1
        have : (uploadReal wok shc offset false).2.2 = none := by
          show (match (uploadProgs wok false shc.shaders offset).2.2 with
              | none => ((⟨(uploadProgs wok false shc.shaders offset).1, shc.changed⟩ : IloShaderCache),
                  (uploadProgs wok false shc.shaders offset).2.1, (none : Option Nat))
              | some off2 =>
                (⟨(uploadChanged wok false (uploadProgs wok false shc.shaders offset).1 shc.changed off2).1,
                  (uploadChanged wok false (uploadProgs wok false shc.shaders offset).1 shc.changed off2).2.1⟩,
                  (uploadProgs wok false shc.shaders offset).2.1 ++
                    (uploadChanged wok false (uploadProgs wok false shc.shaders offset).1 shc.changed off2).2.2.1,
                  (uploadChanged wok false (uploadProgs wok false shc.shaders offset).1 shc.changed off2).2.2.2)).2.2 = none
          rw [hr]
        rw [this]
      have hshc : (ilo_shader_cache_upload wok shc true offset false).shc =
          ⟨(uploadProgs wok false shc.shaders offset).1, shc.changed⟩ := by
        show (uploadReal wok shc offset false).1 = _
        show (match (uploadProgs wok false shc.shaders offset).2.2 with
            | none => ((⟨(uploadProgs wok false shc.shaders offset).1, shc.changed⟩ : IloShaderCache),
                (uploadProgs wok false shc.shaders offset).2.1, (none : Option Nat))
            | some off2 =>
              (⟨(uploadChanged wok false (uploadProgs wok false shc.shaders offset).1 shc.changed off2).1,
                (uploadChanged wok false (uploadProgs wok false shc.shaders offset).1 shc.changed off2).2.1⟩,
                (uploadProgs wok false shc.shaders offset).2.1 ++
                  (uploadChanged wok false (uploadProgs wok false shc.shaders offset).1 shc.changed off2).2.2.1,
                (uploadChanged wok false (uploadProgs wok false shc.shaders offset).1 shc.changed off2).2.2.2)).1 = _
        rw [hr]
      have hw : (ilo_shader_cache_upload wok shc true offset false).writes =
          (uploadProgs wok false shc.shaders offset).2.1 := by
        show (uploadReal wok shc offset false).2.1 = _
        show (match (uploadProgs wok false shc.shaders offset).2.2 with
            | none => ((⟨(uploadProgs wok false shc.shaders offset).1, shc.changed⟩ : IloShaderCache),
                (uploadProgs wok false shc.shaders offset).2.1, (none : Option Nat))
            | some off2 =>
              (⟨(uploadChanged wok false (uploadProgs wok false shc.shaders offset).1 shc.changed off2).1,
                (uploadChanged wok false (uploadProgs wok false shc.shaders offset).1 shc.changed off2).2.1⟩,
                (uploadProgs wok false shc.shaders offset).2.1 ++
                  (uploadChanged wok false (uploadProgs wok false shc.shaders offset).1 shc.changed off2).2.2.1,
                (uploadChanged wok false (uploadProgs wok false shc.shaders offset).1 shc.changed off2).2.2.2)).2.1 = _
        rw [hr]
      refine ⟨hret, ?_, ?_, ⟨0, by rw [hshc]; simp⟩⟩
      · obtain ⟨t0, ht0⟩ := progs_prefix wok false shc.shaders offset
        have htrue : (ilo_shader_cache_upload (fun _ _ => true) shc true offset false).writes =
            (uploadProgs (fun _ _ => true) false shc.shaders offset).2.1 ++
            (uploadChanged (fun _ _ => true) false
              (uploadProgs (fun _ _ => true) false shc.shaders offset).1 shc.changed
              (sizeFold false shc.shaders offset)).2.2.1 := by
          show (uploadReal (fun _ _ => true) shc offset false).2.1 = _
          have h1 : (uploadProgs (fun _ _ => true) false shc.shaders offset).2.2 =
              some (sizeFold false shc.shaders offset) :=
            progs_offset (fun _ _ => rfl) false _ offset
          show (match (uploadProgs (fun _ _ => true) false shc.shaders offset).2.2 with
              | none => ((⟨(uploadProgs (fun _ _ => true) false shc.shaders offset).1, shc.changed⟩ : IloShaderCache),
                  (uploadProgs (fun _ _ => true) false shc.shaders offset).2.1, (none : Option Nat))
              | some off2 =>
                (⟨(uploadChanged (fun _ _ => true) false (uploadProgs (fun _ _ => true) false shc.shaders offset).1 shc.changed off2).1,
                  (uploadChanged (fun _ _ => true) false (uploadProgs (fun _ _ => true) false shc.shaders offset).1 shc.changed off2).2.1⟩,
                  (uploadProgs (fun _ _ => true) false shc.shaders offset).2.1 ++
                    (uploadChanged (fun _ _ => true) false (uploadProgs (fun _ _ => true) false shc.shaders offset).1 shc.changed off2).2.2.1,
                  (uploadChanged (fun _ _ => true) false (uploadProgs (fun _ _ => true) false shc.shaders offset).1 shc.changed off2).2.2.2)).2.1 = _
          rw [h1]
        refine ⟨t0 ++ (uploadChanged (fun _ _ => true) false
          (uploadProgs (fun _ _ => true) false shc.shaders offset).1 shc.changed
          (sizeFold false shc.shaders offset)).2.2.1, ?_⟩
        rw [htrue, hw, ht0, List.append_assoc]
      · intro e he
        rw [hw] at he
        rw [hshc]
        exact RecordedIn_mono (progs_recorded wok false shc.shaders offset e he)
          (fun q hq => List.mem_append_left _ hq)
    | some s1 =>
      cases hrr : (uploadChanged wok false (uploadProgs wok false shc.shaders offset).1
          shc.changed s1).2.2.2 with
      | some o2 =>
        exfalso
        have hret : (ilo_shader_cache_upload wok shc true offset false).ret =
            Int.ofNat (o2 - offset) := by
          show (match (uploadReal wok shc offset false).2.2 with
              | some off2 => Int.ofNat (off2 - offset)
              | none => (-1 : Int)) = _
          have ic : (uploadReal wok shc offset false).2.2 = some o2 := by
            show (match (uploadProgs wok false shc.shaders offset).2.2 with
                | none => ((⟨(uploadProgs wok false shc.shaders offset).1, shc.changed⟩ : IloShaderCache),
                    (uploadProgs wok false shc.shaders offset).2.1, (none : Option Nat))
                | some off2 =>
                  (⟨(uploadChanged wok false (uploadProgs wok false shc.shaders offset).1 shc.changed off2).1,
                    (uploadChanged wok false (uploadProgs wok false shc.shaders offset).1 shc.changed off2).2.1⟩,
                    (uploadProgs wok false shc.shaders offset).2.1 ++
                      (uploadChanged wok false (uploadProgs wok false shc.shaders offset).1 shc.changed off2).2.2.1,
                    (uploadChanged wok false (uploadProgs wok false shc.shaders offset).1 shc.changed off2).2.2.2)).2.2 = some o2
            rw [hr]
            exact hrr
          rw [ic]
        rw [hret] at h
        have h2 : ((o2 - offset : Nat) : Int) < 0 := h
        omega
      | none =>
        have hret : (ilo_shader_cache_upload wok shc true offset false).ret = -1 := by
          show (match (uploadReal wok shc offset false).2.2 with
              | some off2 => Int.ofNat (off2 - offset)
              | none => (-1 : Int)) = _
          have ic : (uploadReal wok shc offset false).2.2 = none := by
            show (match (uploadProgs wok false shc.shaders offset).2.2 with
                | none => ((⟨(uploadProgs wok false shc.shaders offset).1, shc.changed⟩ : IloShaderCache),
                    (uploadProgs wok false shc.shaders offset).2.1, (none : Option Nat))
                | some off2 =>
                  (⟨(uploadChanged wok false (uploadProgs wok false shc.shaders offset).1 shc.changed off2).1,
                    (uploadChanged wok false (uploadProgs wok false shc.shaders offset).1 shc.changed off2).2.1⟩,
                    (uploadProgs wok false shc.shaders offset).2.1 ++
                      (uploadChanged wok false (uploadProgs wok false shc.shaders offset).1 shc.changed off2).2.2.1,
                    (uploadChanged wok false (uploadProgs wok false shc.shaders offset).1 shc.changed off2).2.2.2)).2.2 = none
            rw [hr]
            exact hrr
          rw [ic]
        have hshc : (ilo_shader_cache_upload wok shc true offset false).shc =
            ⟨(uploadChanged wok false (uploadProgs wok false shc.shaders offset).1 shc.changed s1).1,
             (uploadChanged wok false (uploadProgs wok false shc.shaders offset).1 shc.changed s1).2.1⟩ := by
          show (uploadReal wok shc offset false).1 = _
          show (match (uploadProgs wok false shc.shaders offset).2.2 with
              | none => ((⟨(uploadProgs wok false shc.shaders offset).1, shc.changed⟩ : IloShaderCache),
                  (uploadProgs wok false shc.shaders offset).2.1, (none : Option Nat))
              | some off2 =>
                (⟨(uploadChanged wok false (uploadProgs wok false shc.shaders offset).1 shc.changed off2).1,
                  (uploadChanged wok false (uploadProgs wok false shc.shaders offset).1 shc.changed off2).2.1⟩,
                  (uploadProgs wok false shc.shaders offset).2.1 ++
                    (uploadChanged wok false (uploadProgs wok false shc.shaders offset).1 shc.changed off2).2.2.1,
                  (uploadChanged wok false (uploadProgs wok false shc.shaders offset).1 shc.changed off2).2.2.2)).1 = _
          rw [hr]
        have hw : (ilo_shader_cache_upload wok shc true offset false).writes =
            (uploadProgs wok false shc.shaders offset).2.1 ++
            (uploadChanged wok false (uploadProgs wok false shc.shaders offset).1 shc.changed s1).2.2.1 := by
          show (uploadReal wok shc offset false).2.1 = _
          show (match (uploadProgs wok false shc.shaders offset).2.2 with
              | none => ((⟨(uploadProgs wok false shc.shaders offset).1, shc.changed⟩ : IloShaderCache),
                  (uploadProgs wok false shc.shaders offset).2.1, (none : Option Nat))
              | some off2 =>
                (⟨(uploadChanged wok false (uploadProgs wok false shc.shaders offset).1 shc.changed off2).1,
                  (uploadChanged wok false (uploadProgs wok false shc.shaders offset).1 shc.changed off2).2.1⟩,
                  (uploadProgs wok false shc.shaders offset).2.1 ++
                    (uploadChanged wok false (uploadProgs wok false shc.shaders offset).1 shc.changed off2).2.2.1,
                  (uploadChanged wok false (uploadProgs wok false shc.shaders offset).1 shc.changed off2).2.2.2)).2.1 = _
          rw [hr]
        refine ⟨hret, ?_, ?_, ?_⟩
        · have hpeq : uploadProgs (fun _ _ => true) false shc.shaders offset =
              uploadProgs wok false shc.shaders offset := progs_eq_of_success hr
          have htrue : (ilo_shader_cache_upload (fun _ _ => true) shc true offset false).writes =
              (uploadProgs wok false shc.shaders offset).2.1 ++
              (uploadChanged (fun _ _ => true) false
                (uploadProgs wok false shc.shaders offset).1 shc.changed s1).2.2.1 := by
            show (uploadReal (fun _ _ => true) shc offset false).2.1 = _
            have h1 : (uploadProgs (fun _ _ => true) false shc.shaders offset).2.2 = some s1 := by
              rw [hpeq]; exact hr
            show (match (uploadProgs (fun _ _ => true) false shc.shaders offset).2.2 with
                | none => ((⟨(uploadProgs (fun _ _ => true) false shc.shaders offset).1, shc.changed⟩ : IloShaderCache),
                    (uploadProgs (fun _ _ => true) false shc.shaders offset).2.1, (none : Option Nat))
                | some off2 =>
                  (⟨(uploadChanged (fun _ _ => true) false (uploadProgs (fun _ _ => true) false shc.shaders offset).1 shc.changed off2).1,
                    (uploadChanged (fun _ _ => true) false (uploadProgs (fun _ _ => true) false shc.shaders offset).1 shc.changed off2).2.1⟩,
                    (uploadProgs (fun _ _ => true) false shc.shaders offset).2.1 ++
                      (uploadChanged (fun _ _ => true) false (uploadProgs (fun _ _ => true) false shc.shaders offset).1 shc.changed off2).2.2.1,
                    (uploadChanged (fun _ _ => true) false (uploadProgs (fun _ _ => true) false shc.shaders offset).1 shc.changed off2).2.2.2)).2.1 = _
            rw [h1, hpeq]
          obtain ⟨t, ht⟩ := changed_prefix wok false
            (uploadProgs wok false shc.shaders offset).1 shc.changed s1
          refine ⟨t, ?_⟩
          rw [htrue, hw, ht, List.append_assoc]
        · intro e he
          rw [hw] at he
          rw [hshc]
          rcases List.mem_append.mp he with h1 | h2
          · refine RecordedIn_mono (progs_recorded wok false shc.shaders offset e h1) ?_
            intro q hq
            exact List.mem_append_left _
              (changed_acc_mem wok false _ shc.changed s1 q hq)
          · exact changed_recorded wok false _ shc.changed s1 e h2
        · rw [hshc]
          exact changed_suffix wok false _ shc.changed s1

theorem claim_C8_witness :
    (ilo_shader_cache_upload (fun o s => !(o == 0 && s == 100)) cexCacheC1 true 0 false).ret = -1 :=
  (claim_C8_failure (fun o s => !(o == 0 && s == 100)) cexCacheC1 0 false (by decide)).1

/-- The gcRev loop removes a prefix of its (reversed) input: for some j it
returns the input minus its first j entries, with total_size decreased by
exactly the removed kernel sizes, and it stops only once the total is at
most 2048 or the list is exhausted.  It removes at least one entry when
the list is nonempty. -/
theorem gcRev_spec (l : List IloShader) (total num : Nat) :
    ∃ j, j ≤ l.length ∧
      gcRev l total num =
        (l.drop j, total - ((l.take j).map (fun v => v.kernel_size)).sum, num - j) ∧
      ((total - ((l.take j).map (fun v => v.kernel_size)).sum ≤ 2048) ∨ l.drop j = []) ∧
      (∀ i, 1 ≤ i → i < j →
        2048 < total - ((l.take i).map (fun v => v.kernel_size)).sum) := by
  induction l generalizing total num with
  | nil => exact ⟨0, by simp, by simp [gcRev], Or.inr (by simp), fun i _ hi => absurd hi (by omega)⟩
  | cons sh rest ih =>
    by_cases hc : total - sh.kernel_size ≤ 2048
    · refine ⟨1, by simp, ?_, Or.inl (by simpa using hc), fun i h1 hi => absurd hi (by omega)⟩
      simp [gcRev, hc]
    · obtain ⟨j, hj, heq, hstop, hmin⟩ := ih (total - sh.kernel_size) (num - 1)
      refine ⟨j + 1, by simpa using hj, ?_, ?_, ?_⟩
      · simp only [gcRev, if_neg hc, heq, List.drop_succ_cons, List.take_succ_cons,
          List.map_cons, List.sum_cons]
        refine Prod.ext rfl (Prod.ext ?_ ?_) <;> simp <;> omega
      · rcases hstop with h1 | h1
        · refine Or.inl ?_
          simp only [List.take_succ_cons, List.map_cons, List.sum_cons]
          omega
        · exact Or.inr (by simpa using h1)
      · intro i h1 hi
        obtain ⟨i', rfl⟩ : ∃ i', i = i' + 1 := ⟨i - 1, by omega⟩
        rw [List.take_succ_cons, List.map_cons, List.sum_cons]
        by_cases hi0 : i' = 0
        · subst hi0
          simp only [List.take_zero, List.map_nil, List.sum_nil]
          omega
        · have := hmin i' (by omega) (by omega)
          omega

/-- Claim C4: gc leaves a program completely unchanged while
total_size < 4096; otherwise it evicts variants from the tail of the
recency list (the survivors take-k are a prefix), decrementing total_size
by exactly the evicted kernel sizes, and it evicts until total_size ≤ 2048
or the list is exhausted and no further: afterwards total_size ≤ 2048 or
the variant list is empty, and stopping after any shorter tail eviction
(keeping m > k variants) would have left the total above 2048; hence
afterwards total_size ≤ 4096 or the variant list is empty. -/
theorem claim_C4_gc (state : IloShaderState) :
    (state.total_size < 4096 → ilo_shader_state_gc state = state) ∧
    ((ilo_shader_state_gc state).total_size ≤ 4096 ∨
      (ilo_shader_state_gc state).variants = []) ∧
    (∃ k, (ilo_shader_state_gc state).variants = state.variants.take k ∧
      (ilo_shader_state_gc state).total_size =
        state.total_size -
          (((state.variants.drop k).map (fun v => v.kernel_size)).sum) ∧
      (4096 ≤ state.total_size →
        ((ilo_shader_state_gc state).total_size ≤ 2048 ∨
          (ilo_shader_state_gc state).variants = []) ∧
        ∀ m, k < m →
          2048 < state.total_size -
            (((state.variants.drop m).map (fun v => v.kernel_size)).sum))) := by
  by_cases h4 : state.total_size < 4096
  · refine ⟨fun _ => by simp [ilo_shader_state_gc, h4],
      Or.inl (by simp [ilo_shader_state_gc, h4]; omega), ?_⟩
    refine ⟨state.variants.length, ?_, ?_, fun habs => absurd habs (by omega)⟩
    · simp [ilo_shader_state_gc, h4]
    · simp [ilo_shader_state_gc, h4]
  · obtain ⟨j, hj, heq, hstop, hmin⟩ :=
      gcRev_spec state.variants.reverse state.total_size state.num_variants
    have hgc : ilo_shader_state_gc state =
        { state with
          variants := (state.variants.reverse.drop j).reverse,
          total_size := state.total_size -
            ((state.variants.reverse.take j).map (fun v => v.kernel_size)).sum,
          num_variants := state.num_variants - j } := by
      simp only [ilo_shader_state_gc, if_neg h4, heq]
    have hlen : state.variants.reverse.length = state.variants.length :=
      List.length_reverse _
    have hj' : j ≤ state.variants.length := hlen ▸ hj
    have hvar : (state.variants.reverse.drop j).reverse =
        state.variants.take (state.variants.length - j) := by
      rw [List.drop_reverse, List.reverse_reverse]
    have hsumAll : ∀ n, ((state.variants.reverse.take n).map (fun v => v.kernel_size)).sum =
        (((state.variants.drop (state.variants.length - n)).map
          (fun v => v.kernel_size)).sum) := by
      intro n
      rw [List.take_reverse, List.map_reverse, List.sum_reverse]
    have hstop' : (ilo_shader_state_gc state).total_size ≤ 2048 ∨
        (ilo_shader_state_gc state).variants = [] := by
      rcases hstop with h1 | h1
      · exact Or.inl (by rw [hgc]; simpa using h1)
      · refine Or.inr ?_
        rw [hgc]
        show (state.variants.reverse.drop j).reverse = []
        rw [h1, List.reverse_nil]
    refine ⟨fun hlt => absurd hlt h4, ?_, ?_⟩
    · rcases hstop' with h1 | h1
      · exact Or.inl (by omega)
      · exact Or.inr h1
    · refine ⟨state.variants.length - j, by rw [hgc]; exact hvar,
        by simp only [hgc]; rw [hsumAll j], fun _ => ⟨hstop', ?_⟩⟩
      intro m hm
      by_cases hmlen : m < state.variants.length
      · have hgoal := hmin (state.variants.length - m) (by omega) (by omega)
        rw [hsumAll (state.variants.length - m)] at hgoal
        have hidx : state.variants.length - (state.variants.length - m) = m := by omega
        rw [hidx] at hgoal
        exact hgoal
      · have hdrop : state.variants.drop m = [] :=
          List.drop_eq_nil_of_le (by omega)
        rw [hdrop]
        simp only [List.map_nil, List.sum_nil, Nat.sub_zero]
        omega

theorem claim_C4_witness :
    ilo_shader_state_gc cexProgC4small = cexProgC4small ∧
    ((ilo_shader_state_gc cexProgC4).total_size ≤ 2048 ∨
      (ilo_shader_state_gc cexProgC4).variants = []) := by
  obtain ⟨hsmall, _, _⟩ := claim_C4_gc cexProgC4small
  obtain ⟨_, _, k, _, _, hact⟩ := claim_C4_gc cexProgC4
  exact ⟨hsmall (by decide), (hact (by decide)).1⟩

/-- Claim C9: select-kernel returns false with the program untouched (no
variant key is computed) when the dirty mask does not intersect the
program's declared state-dependency mask; otherwise it returns true
exactly when the selected variant (the program's shader pointer after the
call) differs from the previously active one. -/
theorem claim_C9_select_kernel (state : IloShaderState) (dirty key : Nat)
    (compileOk : Bool) (ksize : Nat) :
    (state.non_orthogonal_states &&& dirty = 0 →
      ilo_shader_select_kernel state dirty key compileOk ksize = (state, false)) ∧
    ((ilo_shader_select_kernel state dirty key compileOk ksize).2 = true ↔
      (ilo_shader_select_kernel state dirty key compileOk ksize).1.shader ≠
        state.shader) := by
  by_cases hz : (state.non_orthogonal_states &&& dirty == 0) = true
  · constructor
    · intro _
      simp [ilo_shader_select_kernel, hz]
    · simp [ilo_shader_select_kernel, hz]
  · constructor
    · intro he
      exact absurd (by simpa using he) hz
    · simp [ilo_shader_select_kernel, hz]

theorem claim_C9_witness :
    ilo_shader_select_kernel ⟨0, [], 0, 0, none, 0, 0⟩ 5 7 true 10 =
      (⟨0, [], 0, 0, none, 0, 0⟩, false) :=
  (claim_C9_select_kernel ⟨0, [], 0, 0, none, 0, 0⟩ 5 7 true 10).1 (by decide)

theorem pcnt_append (i : Nat) (a b : List IloShaderState) :
    pcnt i (a ++ b) = pcnt i a + pcnt i b :=
  List.countP_append _ _ _

theorem pcnt_filter_split (i x : Nat) (l : List IloShaderState) :
    pcnt i (l.filter (fun p => p.pid == x)) +
    pcnt i (l.filter (fun p => p.pid != x)) = pcnt i l := by
  induction l with
  | nil => rfl
  | cons p rest ih =>
    by_cases hx : (p.pid == x) = true
    · have hx2 : (p.pid != x) = false := by simp_all
      by_cases hi : (p.pid == i) = true
      · simp [pcnt, hx, hx2, hi] at ih ⊢
        omega
      · simp [pcnt, hx, hx2, hi] at ih ⊢
        omega
    · have hx2 : (p.pid != x) = true := by simp_all
      have hx3 : (p.pid == x) = false := by simp_all
      by_cases hi : (p.pid == i) = true
      · simp [pcnt, hx3, hx2, hi] at ih ⊢
        omega
      · simp [pcnt, hx3, hx2, hi] at ih ⊢
        omega

theorem pcnt_filter_eq_ne (i x : Nat) (hne : i ≠ x) (l : List IloShaderState) :
    pcnt i (l.filter (fun p => p.pid == x)) = 0 := by
  refine List.countP_eq_zero.mpr ?_
  intro p hp
  have h2 := List.of_mem_filter hp
  simp at h2 ⊢
  omega

theorem pcnt_filter_ne_of_ne (i x : Nat) (hne : i ≠ x) (l : List IloShaderState) :
    pcnt i (l.filter (fun p => p.pid != x)) = pcnt i l := by
  have := pcnt_filter_split i x l
  have h0 := pcnt_filter_eq_ne i x hne l
  omega

theorem pcnt_filter_ne_self (x : Nat) (l : List IloShaderState) :
    pcnt x (l.filter (fun p => p.pid != x)) = 0 := by
  refine List.countP_eq_zero.mpr ?_
  intro p hp
  have h2 := List.of_mem_filter hp
  simp at h2 ⊢
  omega

/-- Counting by pid only depends on the pid sequence. -/
theorem pcnt_eq_of_pidmap (i : Nat) {l1 l2 : List IloShaderState}
    (h : l1.map (fun p => p.pid) = l2.map (fun p => p.pid)) :
    pcnt i l1 = pcnt i l2 := by
  have h1 : pcnt i l1 = (l1.map (fun p => p.pid)).countP (fun x => x == i) := by
    rw [List.countP_map]; rfl
  have h2 : pcnt i l2 = (l2.map (fun p => p.pid)).countP (fun x => x == i) := by
    rw [List.countP_map]; rfl
  rw [h1, h2, h]

theorem pcnt_eq_of_pidmap_perm (i : Nat) {l1 l2 : List IloShaderState}
    (h : List.Perm (l1.map (fun p => p.pid)) (l2.map (fun p => p.pid))) :
    pcnt i l1 = pcnt i l2 := by
  have h1 : pcnt i l1 = (l1.map (fun p => p.pid)).countP (fun x => x == i) := by
    rw [List.countP_map]; rfl
  have h2 : pcnt i l2 = (l2.map (fun p => p.pid)).countP (fun x => x == i) := by
    rw [List.countP_map]; rfl
  rw [h1, h2, h.countP_eq]

theorem pcnt_map_pid_preserving (i : Nat) (f : IloShaderState → IloShaderState)
    (l : List IloShaderState) (hf : ∀ p ∈ l, (f p).pid = p.pid) :
    pcnt i (l.map f) = pcnt i l := by
  unfold pcnt
  rw [List.countP_map]
  refine List.countP_congr ?_
  intro p hp
  simp [hf p hp]

/-- Moving the first variant matching a predicate to the front of the list
is a permutation. -/
theorem find_eraseP_perm {p : IloShader → Bool} {l : List IloShader}
    {sh : IloShader} (h : l.find? p = some sh) :
    List.Perm (sh :: l.eraseP p) l := by
  induction l with
  | nil => cases h
  | cons x xs ih =>
    by_cases hx : p x = true
    · rw [List.find?_cons_of_pos _ hx] at h
      cases h
      rw [List.eraseP_cons_of_pos hx]
    · rw [List.find?_cons_of_neg _ hx] at h
      rw [List.eraseP_cons_of_neg hx]
      exact List.Perm.trans (List.Perm.swap x sh _) (List.Perm.cons x (ih h))

/-- The gc result keeps a prefix of the variant list and changes no other
field except the accounting fields. -/
theorem gc_shape (p : IloShaderState) :
    ∃ k, (ilo_shader_state_gc p).variants = p.variants.take k ∧
      (ilo_shader_state_gc p).pid = p.pid ∧
      (ilo_shader_state_gc p).next_vid = p.next_vid ∧
      (ilo_shader_state_gc p).shader = p.shader ∧
      (ilo_shader_state_gc p).non_orthogonal_states = p.non_orthogonal_states := by
  by_cases h4 : p.total_size < 4096
  · exact ⟨p.variants.length, by simp [ilo_shader_state_gc, h4], by simp [ilo_shader_state_gc, h4],
      by simp [ilo_shader_state_gc, h4], by simp [ilo_shader_state_gc, h4],
      by simp [ilo_shader_state_gc, h4]⟩
  · obtain ⟨j, hj, heq, _⟩ := gcRev_spec p.variants.reverse p.total_size p.num_variants
    refine ⟨p.variants.length - j, ?_, by simp [ilo_shader_state_gc, h4],
      by simp [ilo_shader_state_gc, h4], by simp [ilo_shader_state_gc, h4],
      by simp [ilo_shader_state_gc, h4]⟩
    simp only [ilo_shader_state_gc, if_neg h4, heq]
    rw [List.drop_reverse, List.reverse_reverse]

theorem gc_variants_sub (p : IloShaderState) :
    ∀ v ∈ (ilo_shader_state_gc p).variants, v ∈ p.variants := by
  obtain ⟨k, hk, _⟩ := gc_shape p
  rw [hk]
  intro v hv
  exact (List.take_sublist _ _).subset hv

theorem ProgInv_gc {p : IloShaderState} (h : ProgInv p) :
    ProgInv (ilo_shader_state_gc p) := by
  obtain ⟨k, hk, _, hnv, _⟩ := gc_shape p
  constructor
  · intro j
    rw [hk]
    exact Nat.le_trans ((List.take_sublist _ _).countP_le _) (h.1 j)
  · intro v hv
    rw [hnv]
    exact h.2 v (gc_variants_sub p v hv)

theorem use_variant_pid (p : IloShaderState) (key : Nat) (ok : Bool) (ks : Nat) :
    (ilo_shader_state_use_variant p key ok ks).1.pid = p.pid := by
  unfold ilo_shader_state_use_variant
  cases hs : ilo_shader_state_search_variant p key with
  | some sh => rfl
  | none =>
    obtain ⟨k, hk, hpid, _⟩ := gc_shape p
    cases ok <;> simp [hpid]

theorem use_variant_next_vid (p : IloShaderState) (key : Nat) (ok : Bool) (ks : Nat) :
    (ilo_shader_state_use_variant p key ok ks).1.next_vid = p.next_vid ∨
    (ilo_shader_state_use_variant p key ok ks).1.next_vid = p.next_vid + 1 := by
  unfold ilo_shader_state_use_variant
  cases hs : ilo_shader_state_search_variant p key with
  | some sh => exact Or.inl rfl
  | none =>
    obtain ⟨k, hk, _, hnv, _⟩ := gc_shape p
    cases ok
    · exact Or.inl (by simp [hnv])
    · exact Or.inr (by simp [hnv])

/-- Every variant of the post-use_variant program is either an original
variant (unchanged, by value) or the freshly compiled one, which starts
not uploaded and carries a variant identity no original variant has. -/
theorem use_variant_variants {p : IloShaderState} (hinv : ProgInv p)
    (key : Nat) (ok : Bool) (ks : Nat) :
    ∀ v2 ∈ (ilo_shader_state_use_variant p key ok ks).1.variants,
      v2 ∈ p.variants ∨
      (v2.uploaded = false ∧ ∀ v ∈ p.variants, v.vid ≠ v2.vid) := by
  unfold ilo_shader_state_use_variant
  cases hs : ilo_shader_state_search_variant p key with
  | some sh =>
    intro v2 hv2
    refine Or.inl ?_
    have hperm := find_eraseP_perm hs
    exact hperm.mem_iff.mp hv2
  | none =>
    obtain ⟨k, hk, _, hnv, _⟩ := gc_shape p
    cases ok with
    | false =>
      intro v2 hv2
      exact Or.inl (gc_variants_sub p v2 hv2)
    | true =>
      intro v2 hv2
      simp only at hv2
      rcases List.mem_cons.mp hv2 with rfl | hv2b
      · refine Or.inr ⟨rfl, ?_⟩
        intro v hv
        show v.vid ≠ (ilo_shader_state_gc p).next_vid
        rw [hnv]
        exact Nat.ne_of_lt (hinv.2 v hv)
      · exact Or.inl (gc_variants_sub p v2 hv2b)

theorem ProgInv_use_variant {p : IloShaderState} (hinv : ProgInv p)
    (key : Nat) (ok : Bool) (ks : Nat) :
    ProgInv (ilo_shader_state_use_variant p key ok ks).1 := by
  unfold ilo_shader_state_use_variant
  cases hs : ilo_shader_state_search_variant p key with
  | some sh =>
    have hperm := find_eraseP_perm hs
    constructor
    · intro j
      show (sh :: p.variants.eraseP (fun t => t.variant == key)).countP
        (fun v => v.vid == j) ≤ 1
      rw [hperm.countP_eq]
      exact hinv.1 j
    · intro v hv
      show v.vid < p.next_vid
      exact hinv.2 v (hperm.mem_iff.mp hv)
  | none =>
    have hg := ProgInv_gc hinv
    obtain ⟨k, hk, _, hnv, _⟩ := gc_shape p
    cases ok with
    | false => exact hg
    | true =>
      constructor
      · intro j
        show ((⟨(ilo_shader_state_gc p).next_vid, key, ks, false, 0⟩ : IloShader) ::
          (ilo_shader_state_gc p).variants).countP (fun v => v.vid == j) ≤ 1
        have hc := List.countP_cons (fun v => v.vid == j)
          (⟨(ilo_shader_state_gc p).next_vid, key, ks, false, 0⟩ : IloShader)
          (ilo_shader_state_gc p).variants
        by_cases hj : ((ilo_shader_state_gc p).next_vid == j) = true
        · have hz : (ilo_shader_state_gc p).variants.countP (fun v => v.vid == j) = 0 := by
            refine List.countP_eq_zero.mpr ?_
            intro v hv
            have hb := hg.2 v hv
            simp at hj ⊢
            omega
          simp only [hc]
          simp only [hj, if_true]
          omega
        · have hle := hg.1 j
          simp only [hc]
          simp only [hj]
          simpa using hle
      · intro v hv
        show v.vid < (ilo_shader_state_gc p).next_vid + 1
        rcases List.mem_cons.mp hv with rfl | hvb
        · exact Nat.lt_succ_self _
        · exact Nat.lt_succ_of_lt (hg.2 v hvb)

theorem select_kernel_pid (p : IloShaderState) (dirty key : Nat) (ok : Bool) (ks : Nat) :
    (ilo_shader_select_kernel p dirty key ok ks).1.pid = p.pid := by
  unfold ilo_shader_select_kernel
  by_cases hz : (p.non_orthogonal_states &&& dirty == 0) = true
  · simp [hz]
  · simp only [hz, Bool.false_eq_true, if_false]
    exact use_variant_pid p key ok ks

theorem select_kernel_variants {p : IloShaderState} (hinv : ProgInv p)
    (dirty key : Nat) (ok : Bool) (ks : Nat) :
    ∀ v2 ∈ (ilo_shader_select_kernel p dirty key ok ks).1.variants,
      v2 ∈ p.variants ∨
      (v2.uploaded = false ∧ ∀ v ∈ p.variants, v.vid ≠ v2.vid) := by
  unfold ilo_shader_select_kernel
  by_cases hz : (p.non_orthogonal_states &&& dirty == 0) = true
  · simp only [hz, if_true]
    intro v2 hv2
    exact Or.inl hv2
  · simp only [hz, Bool.false_eq_true, if_false]
    exact use_variant_variants hinv key ok ks

theorem ProgInv_select_kernel {p : IloShaderState} (hinv : ProgInv p)
    (dirty key : Nat) (ok : Bool) (ks : Nat) :
    ProgInv (ilo_shader_select_kernel p dirty key ok ks).1 := by
  unfold ilo_shader_select_kernel
  by_cases hz : (p.non_orthogonal_states &&& dirty == 0) = true
  · simpa [hz] using hinv
  · simp only [hz, Bool.false_eq_true, if_false]
    exact ProgInv_use_variant hinv key ok ks

/-- Resetting the uploaded flags of all variants (cache add) keeps the
variant identity sequence. -/
theorem reset_vidmap (p : IloShaderState) :
    (iloCacheAddReset p).variants.map (fun v => v.vid) =
      p.variants.map (fun v => v.vid) := by
  unfold iloCacheAddReset
  simp

theorem ProgInv_reset {p : IloShaderState} (hinv : ProgInv p) :
    ProgInv (iloCacheAddReset p) := by
  constructor
  · intro j
    show (p.variants.map (fun sh => { sh with uploaded := false })).countP
      (fun v => v.vid == j) ≤ 1
    rw [List.countP_map]
    exact Nat.le_trans (Nat.le_of_eq (List.countP_congr (fun v _ => by simp))) (hinv.1 j)
  · intro v hv
    show v.vid < p.next_vid
    obtain ⟨w, hw, rfl⟩ := List.mem_map.mp hv
    exact hinv.2 w hw

theorem uploadReal_true_eq (wok : Nat → Nat → Bool) (shc : IloShaderCache) (off : Nat) :
    uploadReal wok shc off true =
      (⟨(uploadChanged wok true shc.shaders shc.changed off).1,
        (uploadChanged wok true shc.shaders shc.changed off).2.1⟩,
       (uploadChanged wok true shc.shaders shc.changed off).2.2.1,
       (uploadChanged wok true shc.shaders shc.changed off).2.2.2) := rfl

theorem uploadReal_false_none (wok : Nat → Nat → Bool) (shc : IloShaderCache) (off : Nat)
    (hr : (uploadProgs wok false shc.shaders off).2.2 = none) :
    uploadReal wok shc off false =
      (⟨(uploadProgs wok false shc.shaders off).1, shc.changed⟩,
       (uploadProgs wok false shc.shaders off).2.1, none) := by
  simp [uploadReal, hr]

theorem uploadReal_false_some (wok : Nat → Nat → Bool) (shc : IloShaderCache)
    (off s1 : Nat) (hr : (uploadProgs wok false shc.shaders off).2.2 = some s1) :
    uploadReal wok shc off false =
      (⟨(uploadChanged wok false (uploadProgs wok false shc.shaders off).1 shc.changed s1).1,
        (uploadChanged wok false (uploadProgs wok false shc.shaders off).1 shc.changed s1).2.1⟩,
       (uploadProgs wok false shc.shaders off).2.1 ++
         (uploadChanged wok false (uploadProgs wok false shc.shaders off).1 shc.changed s1).2.2.1,
       (uploadChanged wok false (uploadProgs wok false shc.shaders off).1 shc.changed s1).2.2.2) := by
  simp [uploadReal, hr]

/-- Every program in the post-upload cache is a pre-upload cache program
rewritten by the upload passes. -/
theorem uploadReal_mem (wok : Nat → Nat → Bool) (shc : IloShaderCache)
    (off : Nat) (inc : Bool) :
    ∀ q ∈ (uploadReal wok shc off inc).1.shaders ++ (uploadReal wok shc off inc).1.changed,
      ∃ p ∈ shc.shaders ++ shc.changed, ProgUpd p q := by
  cases inc with
  | true =>
    rw [uploadReal_true_eq]
    exact changed_mem wok true shc.shaders shc.changed off
  | false =>
    cases hr : (uploadProgs wok false shc.shaders off).2.2 with
    | none =>
      rw [uploadReal_false_none wok shc off hr]
      intro q hq
      rcases List.mem_append.mp hq with h1 | h2
      · obtain ⟨p, hp, hu⟩ := progs_mem wok false shc.shaders off q h1
        exact ⟨p, List.mem_append_left _ hp, hu⟩
      · exact ⟨q, List.mem_append_right _ h2, ProgUpd_refl q⟩
    | some s1 =>
      rw [uploadReal_false_some wok shc off s1 hr]
      intro q hq
      obtain ⟨p0, hp0, hu0⟩ := changed_mem wok false
        (uploadProgs wok false shc.shaders off).1 shc.changed s1 q hq
      rcases List.mem_append.mp hp0 with h1 | h2
      · obtain ⟨p, hp, hu⟩ := progs_mem wok false shc.shaders off p0 h1
        exact ⟨p, List.mem_append_left _ hp, ProgUpd_trans hu hu0⟩
      · exact ⟨p0, List.mem_append_right _ h2, hu0⟩

/-- The upload entry point only rewrites variants and moves programs
between the two cache lists: the pid multiset of the cache is preserved. -/
theorem uploadReal_pid_perm (wok : Nat → Nat → Bool) (shc : IloShaderCache)
    (off : Nat) (inc : Bool) :
    List.Perm
      (((uploadReal wok shc off inc).1.shaders ++
        (uploadReal wok shc off inc).1.changed).map (fun p => p.pid))
      ((shc.shaders ++ shc.changed).map (fun p => p.pid)) := by
  cases inc with
  | true =>
    rw [uploadReal_true_eq]
    exact changed_pid_perm wok true shc.shaders shc.changed off
  | false =>
    cases hr : (uploadProgs wok false shc.shaders off).2.2 with
    | none =>
      rw [uploadReal_false_none wok shc off hr]
      have he : ((uploadProgs wok false shc.shaders off).1 ++ shc.changed).map (fun p => p.pid) =
          (shc.shaders ++ shc.changed).map (fun p => p.pid) := by
        rw [List.map_append, List.map_append, progs_pidmap]
      rw [he]
    | some s1 =>
      rw [uploadReal_false_some wok shc off s1 hr]
      refine List.Perm.trans
        (changed_pid_perm wok false (uploadProgs wok false shc.shaders off).1 shc.changed s1) ?_
      have he : ((uploadProgs wok false shc.shaders off).1 ++ shc.changed).map (fun p => p.pid) =
          (shc.shaders ++ shc.changed).map (fun p => p.pid) := by
        rw [List.map_append, List.map_append, progs_pidmap]
      rw [he]

theorem moveToChanged_pcnt_cache (i pid : Nat) (s : CacheSys) :
    pcnt i ((moveToChanged pid s).shaders ++ (moveToChanged pid s).changed) =
      pcnt i (s.shaders ++ s.changed) := by
  show pcnt i (s.shaders.filter (fun p => p.pid != pid) ++
    (s.shaders.filter (fun p => p.pid == pid) ++
     s.changed.filter (fun p => p.pid == pid) ++
     s.changed.filter (fun p => p.pid != pid))) = _
  rw [pcnt_append, pcnt_append, pcnt_append, pcnt_append]
  have h1 := pcnt_filter_split i pid s.shaders
  have h2 := pcnt_filter_split i pid s.changed
  omega

theorem moveToChanged_pcnt_all (i pid : Nat) (s : CacheSys) :
    pcnt i (allProgs (moveToChanged pid s)) = pcnt i (allProgs s) := by
  unfold allProgs
  rw [pcnt_append, pcnt_append]
  have h1 := moveToChanged_pcnt_cache i pid s
  rw [pcnt_append, pcnt_append] at h1
  have h2 : pcnt i (moveToChanged pid s).detached = pcnt i s.detached := rfl
  rw [pcnt_append, pcnt_append]
  omega

theorem moveToChanged_mem (pid : Nat) (s : CacheSys) :
    ∀ q ∈ allProgs (moveToChanged pid s), q ∈ allProgs s := by
  intro q hq
  have hq2 : q ∈ (s.shaders.filter (fun p => p.pid != pid) ++
      (s.shaders.filter (fun p => p.pid == pid) ++
       s.changed.filter (fun p => p.pid == pid) ++
       s.changed.filter (fun p => p.pid != pid))) ++ s.detached := hq
  unfold allProgs
  simp only [List.mem_append, List.mem_filter] at hq2 ⊢
  tauto

theorem mem_allProgs_shaders {sys : CacheSys} {q : IloShaderState}
    (hq : q ∈ sys.shaders) : q ∈ allProgs sys :=
  List.mem_append_left _ (List.mem_append_left _ hq)

theorem mem_allProgs_changed {sys : CacheSys} {q : IloShaderState}
    (hq : q ∈ sys.changed) : q ∈ allProgs sys :=
  List.mem_append_left _ (List.mem_append_right _ hq)

theorem mem_allProgs_detached {sys : CacheSys} {q : IloShaderState}
    (hq : q ∈ sys.detached) : q ∈ allProgs sys :=
  List.mem_append_right _ hq

theorem SysInv_create {sys : CacheSys} (h : SysInv sys) (mask : Nat) :
    SysInv (step (.create mask) sys) := by
  obtain ⟨hcnt, hfresh, hpinv, hreg⟩ := h
  refine ⟨?_, ?_, ?_, hreg⟩
  · intro i
    show pcnt i ((sys.shaders ++ sys.changed) ++
      ((⟨sys.next_pid, [], 0, 0, none, 0, mask⟩ : IloShaderState) :: sys.detached)) ≤ 1
    rw [pcnt_append]
    have hc := List.countP_cons (fun p => p.pid == i)
      (⟨sys.next_pid, [], 0, 0, none, 0, mask⟩ : IloShaderState) sys.detached
    have hold := hcnt i
    unfold allProgs at hold
    rw [pcnt_append] at hold
    by_cases hi : (sys.next_pid == i) = true
    · have hz : pcnt i (allProgs sys) = 0 := by
        refine List.countP_eq_zero.mpr ?_
        intro p hp
        have := hfresh p hp
        simp at hi ⊢
        omega
      unfold allProgs at hz
      rw [pcnt_append] at hz
      show pcnt i (sys.shaders ++ sys.changed) +
        List.countP (fun p => p.pid == i)
          ((⟨sys.next_pid, [], 0, 0, none, 0, mask⟩ : IloShaderState) :: sys.detached) ≤ 1
      simp only [hi, if_true] at hc
      show _ + ((⟨sys.next_pid, [], 0, 0, none, 0, mask⟩ : IloShaderState) :: sys.detached).countP
        (fun p => p.pid == i) ≤ 1
      rw [hc]
      have : pcnt i sys.detached = sys.detached.countP (fun p => p.pid == i) := rfl
      omega
    · have hi2 : (sys.next_pid == i) = false := by
        revert hi
        cases sys.next_pid == i <;> simp
      simp only [hi2, Bool.false_eq_true, if_false] at hc
      show _ + ((⟨sys.next_pid, [], 0, 0, none, 0, mask⟩ : IloShaderState) :: sys.detached).countP
        (fun p => p.pid == i) ≤ 1
      rw [hc]
      have : pcnt i sys.detached = sys.detached.countP (fun p => p.pid == i) := rfl
      omega
  · intro p hp
    have hp2 : p ∈ (sys.shaders ++ sys.changed) ++
      ((⟨sys.next_pid, [], 0, 0, none, 0, mask⟩ : IloShaderState) :: sys.detached) := hp
    show p.pid < sys.next_pid + 1
    rcases List.mem_append.mp hp2 with h1 | h2
    · have hm3 : p ∈ allProgs sys := by
        rcases List.mem_append.mp h1 with ha | hb
        · exact mem_allProgs_shaders ha
        · exact mem_allProgs_changed hb
      exact Nat.lt_succ_of_lt (hfresh p hm3)
    · rcases List.mem_cons.mp h2 with rfl | hd
      · exact Nat.lt_succ_self _
      · exact Nat.lt_succ_of_lt (hfresh p (mem_allProgs_detached hd))
  · intro p hp
    have hp2 : p ∈ (sys.shaders ++ sys.changed) ++
      ((⟨sys.next_pid, [], 0, 0, none, 0, mask⟩ : IloShaderState) :: sys.detached) := hp
    rcases List.mem_append.mp hp2 with h1 | h2
    · refine hpinv p ?_
      rcases List.mem_append.mp h1 with ha | hb
      · exact mem_allProgs_shaders ha
      · exact mem_allProgs_changed hb
    · rcases List.mem_cons.mp h2 with rfl | hd
      · exact ⟨fun j => by simp, fun v hv => by cases hv⟩
      · exact hpinv p (mem_allProgs_detached hd)

theorem reset_pid (p : IloShaderState) : (iloCacheAddReset p).pid = p.pid := rfl

theorem SysInv_add {sys : CacheSys} (h : SysInv sys) (pid : Nat) :
    SysInv (step (.add pid) sys) := by
  obtain ⟨hcnt, hfresh, hpinv, hreg⟩ := h
  by_cases hm : (sys.detached.filter (fun p => p.pid == pid)).isEmpty = true
  · have : step (.add pid) sys = sys := by
      simp only [step, hm, if_true]
    rw [this]
    exact ⟨hcnt, hfresh, hpinv, hreg⟩
  · have hne : sys.detached.filter (fun p => p.pid == pid) ≠ [] := by
      intro hnil
      rw [hnil] at hm
      exact hm rfl
    have hm2 : (sys.detached.filter (fun p => p.pid == pid)).isEmpty = false := by
      revert hm
      cases (sys.detached.filter (fun p => p.pid == pid)).isEmpty <;> simp
    have hstep : step (.add pid) sys =
        { sys with
          changed := (sys.detached.filter (fun p => p.pid == pid)).map iloCacheAddReset
                     ++ sys.changed,
          detached := sys.detached.filter (fun p => p.pid != pid),
          registered := pid :: sys.registered } := by
      simp only [step, hm2, Bool.false_eq_true, if_false]
    rw [hstep]
    have hMcnt : ∀ i, pcnt i ((sys.detached.filter (fun p => p.pid == pid)).map iloCacheAddReset) =
        pcnt i (sys.detached.filter (fun p => p.pid == pid)) := by
      intro i
      exact pcnt_map_pid_preserving i _ _ (fun p _ => rfl)
    have hall : ∀ i, pcnt i (allProgs sys) =
        pcnt i sys.shaders + pcnt i sys.changed + pcnt i sys.detached := by
      intro i
      unfold allProgs
      rw [pcnt_append, pcnt_append]
    refine ⟨?_, ?_, ?_, ?_⟩
    · intro i
      show pcnt i ((sys.shaders ++
        ((sys.detached.filter (fun p => p.pid == pid)).map iloCacheAddReset ++ sys.changed)) ++
        sys.detached.filter (fun p => p.pid != pid)) ≤ 1
      rw [pcnt_append, pcnt_append, pcnt_append, hMcnt]
      have hsplit := pcnt_filter_split i pid sys.detached
      have hold := hcnt i
      rw [hall] at hold
      omega
    · intro p hp
      have hp2 : p ∈ (sys.shaders ++
        ((sys.detached.filter (fun p => p.pid == pid)).map iloCacheAddReset ++ sys.changed)) ++
        sys.detached.filter (fun p => p.pid != pid) := hp
      show p.pid < sys.next_pid
      rcases List.mem_append.mp hp2 with h1 | h2
      · rcases List.mem_append.mp h1 with ha | hb
        · exact hfresh p (mem_allProgs_shaders ha)
        · rcases List.mem_append.mp hb with hm1 | hc1
          · obtain ⟨q, hq, rfl⟩ := List.mem_map.mp hm1
            have hq2 : q ∈ sys.detached := List.mem_of_mem_filter hq
            rw [reset_pid]
            exact hfresh q (mem_allProgs_detached hq2)
          · exact hfresh p (mem_allProgs_changed hc1)
      · have hd2 : p ∈ sys.detached := List.mem_of_mem_filter h2
        exact hfresh p (mem_allProgs_detached hd2)
    · intro p hp
      have hp2 : p ∈ (sys.shaders ++
        ((sys.detached.filter (fun p => p.pid == pid)).map iloCacheAddReset ++ sys.changed)) ++
        sys.detached.filter (fun p => p.pid != pid) := hp
      rcases List.mem_append.mp hp2 with h1 | h2
      · rcases List.mem_append.mp h1 with ha | hb
        · exact hpinv p (mem_allProgs_shaders ha)
        · rcases List.mem_append.mp hb with hm1 | hc1
          · obtain ⟨q, hq, rfl⟩ := List.mem_map.mp hm1
            have hq2 : q ∈ sys.detached := List.mem_of_mem_filter hq
            exact ProgInv_reset (hpinv q (mem_allProgs_detached hq2))
          · exact hpinv p (mem_allProgs_changed hc1)
      · have hd2 : p ∈ sys.detached := List.mem_of_mem_filter h2
        exact hpinv p (mem_allProgs_detached hd2)
    · intro i
      show i ∈ pid :: sys.registered ↔
        1 ≤ pcnt i (sys.shaders ++
          ((sys.detached.filter (fun p => p.pid == pid)).map iloCacheAddReset ++ sys.changed))
      rw [pcnt_append, pcnt_append, hMcnt]
      by_cases hi : i = pid
      · subst hi
        constructor
        · intro _
          obtain ⟨x, hx⟩ := List.exists_mem_of_ne_nil _ hne
          have hx2 := List.of_mem_filter hx
          have : 0 < pcnt i (sys.detached.filter (fun p => p.pid == i)) :=
            List.countP_pos_iff.mpr ⟨x, hx, hx2⟩
          omega
        · intro _
          exact List.mem_cons_self _ _
      · have hz : pcnt i (sys.detached.filter (fun p => p.pid == pid)) = 0 :=
          pcnt_filter_eq_ne i pid hi sys.detached
        have hro := hreg i
        rw [pcnt_append] at hro
        constructor
        · intro hmem
          rcases List.mem_cons.mp hmem with rfl | hmem2
          · exact absurd rfl hi
          · have := hro.mp hmem2
            omega
        · intro hle
          refine List.mem_cons_of_mem _ (hro.mpr ?_)
          omega

theorem ProgInv_of_ProgUpd {p q : IloShaderState} (hpu : ProgUpd p q)
    (hinv : ProgInv p) : ProgInv q := by
  obtain ⟨hpid, hnv, _, hvm, hf2⟩ := hpu
  constructor
  · intro j
    have h1 : q.variants.countP (fun v => v.vid == j) =
        (q.variants.map (fun v => v.vid)).countP (fun x => x == j) := by
      rw [List.countP_map]; rfl
    have h2 : p.variants.countP (fun v => v.vid == j) =
        (p.variants.map (fun v => v.vid)).countP (fun x => x == j) := by
      rw [List.countP_map]; rfl
    rw [h1, hvm, ← h2]
    exact hinv.1 j
  · intro v hv
    obtain ⟨w, hw, hrel⟩ := forall2_mem_right hf2 v hv
    rw [hnv, hrel.1]
    exact hinv.2 w hw

theorem SysInv_moveToChanged {sys : CacheSys} (h : SysInv sys) (pid : Nat) :
    SysInv (moveToChanged pid sys) := by
  obtain ⟨hcnt, hfresh, hpinv, hreg⟩ := h
  refine ⟨?_, ?_, ?_, ?_⟩
  · intro i
    rw [moveToChanged_pcnt_all]
    exact hcnt i
  · intro p hp
    show p.pid < sys.next_pid
    exact hfresh p (moveToChanged_mem pid sys p hp)
  · intro p hp
    exact hpinv p (moveToChanged_mem pid sys p hp)
  · intro i
    show i ∈ sys.registered ↔ _
    rw [moveToChanged_pcnt_cache]
    exact hreg i

theorem SysInv_notify {sys : CacheSys} (h : SysInv sys) (pid : Nat) :
    SysInv (step (.notify pid) sys) :=
  SysInv_moveToChanged h pid

theorem SysInv_remove {sys : CacheSys} (h : SysInv sys) (pid : Nat) :
    SysInv (step (.remove pid) sys) := by
  obtain ⟨hcnt, hfresh, hpinv, hreg⟩ := h
  refine ⟨?_, ?_, ?_, ?_⟩
  · intro i
    show pcnt i ((sys.shaders.filter (fun p => p.pid != pid) ++
      sys.changed.filter (fun p => p.pid != pid)) ++
      (sys.shaders.filter (fun p => p.pid == pid) ++
       sys.changed.filter (fun p => p.pid == pid) ++ sys.detached)) ≤ 1
    rw [pcnt_append, pcnt_append, pcnt_append, pcnt_append]
    have h1 := pcnt_filter_split i pid sys.shaders
    have h2 := pcnt_filter_split i pid sys.changed
    have hold := hcnt i
    unfold allProgs at hold
    rw [pcnt_append, pcnt_append] at hold
    omega
  · intro p hp
    have hp2 : p ∈ (sys.shaders.filter (fun p => p.pid != pid) ++
      sys.changed.filter (fun p => p.pid != pid)) ++
      (sys.shaders.filter (fun p => p.pid == pid) ++
       sys.changed.filter (fun p => p.pid == pid) ++ sys.detached) := hp
    show p.pid < sys.next_pid
    rcases List.mem_append.mp hp2 with h1 | h2
    · rcases List.mem_append.mp h1 with ha | hb
      · exact hfresh p (mem_allProgs_shaders (List.mem_of_mem_filter ha))
      · exact hfresh p (mem_allProgs_changed (List.mem_of_mem_filter hb))
    · rcases List.mem_append.mp h2 with hc | hd
      · rcases List.mem_append.mp hc with he | hf2
        · exact hfresh p (mem_allProgs_shaders (List.mem_of_mem_filter he))
        · exact hfresh p (mem_allProgs_changed (List.mem_of_mem_filter hf2))
      · exact hfresh p (mem_allProgs_detached hd)
  · intro p hp
    have hp2 : p ∈ (sys.shaders.filter (fun p => p.pid != pid) ++
      sys.changed.filter (fun p => p.pid != pid)) ++
      (sys.shaders.filter (fun p => p.pid == pid) ++
       sys.changed.filter (fun p => p.pid == pid) ++ sys.detached) := hp
    rcases List.mem_append.mp hp2 with h1 | h2
    · rcases List.mem_append.mp h1 with ha | hb
      · exact hpinv p (mem_allProgs_shaders (List.mem_of_mem_filter ha))
      · exact hpinv p (mem_allProgs_changed (List.mem_of_mem_filter hb))
    · rcases List.mem_append.mp h2 with hc | hd
      · rcases List.mem_append.mp hc with he | hf2
        · exact hpinv p (mem_allProgs_shaders (List.mem_of_mem_filter he))
        · exact hpinv p (mem_allProgs_changed (List.mem_of_mem_filter hf2))
      · exact hpinv p (mem_allProgs_detached hd)
  · intro i
    show i ∈ sys.registered.filter (fun x => x != pid) ↔
      1 ≤ pcnt i (sys.shaders.filter (fun p => p.pid != pid) ++
        sys.changed.filter (fun p => p.pid != pid))
    rw [pcnt_append]
    by_cases hi : i = pid
    · subst hi
      have hz1 := pcnt_filter_ne_self i sys.shaders
      have hz2 := pcnt_filter_ne_self i sys.changed
      constructor
      · intro hmem
        have := List.of_mem_filter hmem
        simp at this
      · intro hle
        omega
    · have he1 := pcnt_filter_ne_of_ne i pid hi sys.shaders
      have he2 := pcnt_filter_ne_of_ne i pid hi sys.changed
      have hro := hreg i
      rw [pcnt_append] at hro
      constructor
      · intro hmem
        exact (by omega : 1 ≤ pcnt i (sys.shaders.filter (fun p => p.pid != pid)) +
          pcnt i (sys.changed.filter (fun p => p.pid != pid)) ↔
          1 ≤ pcnt i sys.shaders + pcnt i sys.changed).mpr
          (hro.mp (List.mem_of_mem_filter hmem))
      · intro hle
        refine List.mem_filter.mpr ⟨hro.mpr (by omega), ?_⟩
        simp [hi]

theorem SysInv_upload {sys : CacheSys} (h : SysInv sys)
    (failures : List (Nat × Nat)) (off : Nat) (inc : Bool) :
    SysInv (step (.upload failures off inc) sys) := by
  obtain ⟨hcnt, hfresh, hpinv, hreg⟩ := h
  have hperm := uploadReal_pid_perm (fun o s => !(failures.contains (o, s)))
    ⟨sys.shaders, sys.changed⟩ off inc
  have hmem := uploadReal_mem (fun o s => !(failures.contains (o, s)))
    ⟨sys.shaders, sys.changed⟩ off inc
  have hc2 : ∀ i, pcnt i
      ((uploadReal (fun o s => !(failures.contains (o, s))) ⟨sys.shaders, sys.changed⟩ off inc).1.shaders ++
       (uploadReal (fun o s => !(failures.contains (o, s))) ⟨sys.shaders, sys.changed⟩ off inc).1.changed) =
      pcnt i (sys.shaders ++ sys.changed) := by
    intro i
    exact pcnt_eq_of_pidmap_perm i hperm
  refine ⟨?_, ?_, ?_, ?_⟩
  · intro i
    show pcnt i
      (((uploadReal (fun o s => !(failures.contains (o, s))) ⟨sys.shaders, sys.changed⟩ off inc).1.shaders ++
        (uploadReal (fun o s => !(failures.contains (o, s))) ⟨sys.shaders, sys.changed⟩ off inc).1.changed) ++
        sys.detached) ≤ 1
    rw [pcnt_append, hc2]
    have hold := hcnt i
    unfold allProgs at hold
    rw [pcnt_append] at hold
    omega
  · intro p hp
    have hp2 : p ∈
      ((uploadReal (fun o s => !(failures.contains (o, s))) ⟨sys.shaders, sys.changed⟩ off inc).1.shaders ++
       (uploadReal (fun o s => !(failures.contains (o, s))) ⟨sys.shaders, sys.changed⟩ off inc).1.changed) ++
       sys.detached := hp
    show p.pid < sys.next_pid
    rcases List.mem_append.mp hp2 with h1 | h2
    · obtain ⟨q, hq, hpu⟩ := hmem p h1
      rw [hpu.1]
      rcases List.mem_append.mp hq with ha | hb
      · exact hfresh q (mem_allProgs_shaders ha)
      · exact hfresh q (mem_allProgs_changed hb)
    · exact hfresh p (mem_allProgs_detached h2)
  · intro p hp
    have hp2 : p ∈
      ((uploadReal (fun o s => !(failures.contains (o, s))) ⟨sys.shaders, sys.changed⟩ off inc).1.shaders ++
       (uploadReal (fun o s => !(failures.contains (o, s))) ⟨sys.shaders, sys.changed⟩ off inc).1.changed) ++
       sys.detached := hp
    rcases List.mem_append.mp hp2 with h1 | h2
    · obtain ⟨q, hq, hpu⟩ := hmem p h1
      refine ProgInv_of_ProgUpd hpu ?_
      rcases List.mem_append.mp hq with ha | hb
      · exact hpinv q (mem_allProgs_shaders ha)
      · exact hpinv q (mem_allProgs_changed hb)
    · exact hpinv p (mem_allProgs_detached h2)
  · intro i
    show i ∈ sys.registered ↔
      1 ≤ pcnt i
        ((uploadReal (fun o s => !(failures.contains (o, s))) ⟨sys.shaders, sys.changed⟩ off inc).1.shaders ++
         (uploadReal (fun o s => !(failures.contains (o, s))) ⟨sys.shaders, sys.changed⟩ off inc).1.changed)
    rw [hc2 i]
    exact hreg i

/-- Applying a pid-preserving, ProgInv-preserving update to every program
in every zone preserves the system invariant. -/
theorem SysInv_map_upd {sys : CacheSys} (h : SysInv sys)
    (upd : IloShaderState → IloShaderState)
    (hpid : ∀ p, (upd p).pid = p.pid)
    (hpi : ∀ p, ProgInv p → ProgInv (upd p)) :
    SysInv { sys with shaders := sys.shaders.map upd,
                      changed := sys.changed.map upd,
                      detached := sys.detached.map upd } := by
  obtain ⟨hcnt, hfresh, hpinv, hreg⟩ := h
  refine ⟨?_, ?_, ?_, ?_⟩
  · intro i
    show pcnt i ((sys.shaders.map upd ++ sys.changed.map upd) ++ sys.detached.map upd) ≤ 1
    rw [pcnt_append, pcnt_append,
      pcnt_map_pid_preserving i upd _ (fun p _ => hpid p),
      pcnt_map_pid_preserving i upd _ (fun p _ => hpid p),
      pcnt_map_pid_preserving i upd _ (fun p _ => hpid p)]
    have hold := hcnt i
    unfold allProgs at hold
    rw [pcnt_append, pcnt_append] at hold
    omega
  · intro p hp
    have hp2 : p ∈ (sys.shaders.map upd ++ sys.changed.map upd) ++ sys.detached.map upd := hp
    show p.pid < sys.next_pid
    rcases List.mem_append.mp hp2 with h1 | h2
    · rcases List.mem_append.mp h1 with ha | hb
      · obtain ⟨q, hq, rfl⟩ := List.mem_map.mp ha
        rw [hpid q]
        exact hfresh q (mem_allProgs_shaders hq)
      · obtain ⟨q, hq, rfl⟩ := List.mem_map.mp hb
        rw [hpid q]
        exact hfresh q (mem_allProgs_changed hq)
    · obtain ⟨q, hq, rfl⟩ := List.mem_map.mp h2
      rw [hpid q]
      exact hfresh q (mem_allProgs_detached hq)
  · intro p hp
    have hp2 : p ∈ (sys.shaders.map upd ++ sys.changed.map upd) ++ sys.detached.map upd := hp
    rcases List.mem_append.mp hp2 with h1 | h2
    · rcases List.mem_append.mp h1 with ha | hb
      · obtain ⟨q, hq, rfl⟩ := List.mem_map.mp ha
        exact hpi q (hpinv q (mem_allProgs_shaders hq))
      · obtain ⟨q, hq, rfl⟩ := List.mem_map.mp hb
        exact hpi q (hpinv q (mem_allProgs_changed hq))
    · obtain ⟨q, hq, rfl⟩ := List.mem_map.mp h2
      exact hpi q (hpinv q (mem_allProgs_detached hq))
  · intro i
    show i ∈ sys.registered ↔
      1 ≤ pcnt i (sys.shaders.map upd ++ sys.changed.map upd)
    rw [pcnt_append,
      pcnt_map_pid_preserving i upd _ (fun p _ => hpid p),
      pcnt_map_pid_preserving i upd _ (fun p _ => hpid p)]
    have hro := hreg i
    rw [pcnt_append] at hro
    exact hro

theorem SysInv_useVar {sys : CacheSys} (h : SysInv sys)
    (pid key : Nat) (ok : Bool) (ks : Nat) :
    SysInv (step (.useVar pid key ok ks) sys) := by
  have hs2 := SysInv_map_upd h
    (fun p => if p.pid == pid then (ilo_shader_state_use_variant p key ok ks).1 else p)
    (fun p => by
      by_cases hp : (p.pid == pid) = true
      · simp only [hp, if_true]
        exact use_variant_pid p key ok ks
      · simp [hp])
    (fun p hpi => by
      by_cases hp : (p.pid == pid) = true
      · simp only [hp, if_true]
        exact ProgInv_use_variant hpi key ok ks
      · simpa only [hp, if_false] using hpi)
  show SysInv (if ((sys.shaders ++ sys.changed).any
      (fun p => p.pid == pid && (ilo_shader_state_use_variant p key ok ks).2.1)) = true
    then moveToChanged pid
      { sys with
        shaders := sys.shaders.map
          (fun p => if p.pid == pid then (ilo_shader_state_use_variant p key ok ks).1 else p),
        changed := sys.changed.map
          (fun p => if p.pid == pid then (ilo_shader_state_use_variant p key ok ks).1 else p),
        detached := sys.detached.map
          (fun p => if p.pid == pid then (ilo_shader_state_use_variant p key ok ks).1 else p) }
    else
      { sys with
        shaders := sys.shaders.map
          (fun p => if p.pid == pid then (ilo_shader_state_use_variant p key ok ks).1 else p),
        changed := sys.changed.map
          (fun p => if p.pid == pid then (ilo_shader_state_use_variant p key ok ks).1 else p),
        detached := sys.detached.map
          (fun p => if p.pid == pid then (ilo_shader_state_use_variant p key ok ks).1 else p) })
  by_cases hadd : ((sys.shaders ++ sys.changed).any
      (fun p => p.pid == pid && (ilo_shader_state_use_variant p key ok ks).2.1)) = true
  · rw [if_pos hadd]
    exact SysInv_moveToChanged hs2 pid
  · rw [if_neg hadd]
    exact hs2

theorem SysInv_select {sys : CacheSys} (h : SysInv sys)
    (pid dirty key : Nat) (ok : Bool) (ks : Nat) :
    SysInv (step (.select pid dirty key ok ks) sys) := by
  have hs2 := SysInv_map_upd h
    (fun p => if p.pid == pid then (ilo_shader_select_kernel p dirty key ok ks).1 else p)
    (fun p => by
      by_cases hp : (p.pid == pid) = true
      · simp only [hp, if_true]
        exact select_kernel_pid p dirty key ok ks
      · simp [hp])
    (fun p hpi => by
      by_cases hp : (p.pid == pid) = true
      · simp only [hp, if_true]
        exact ProgInv_select_kernel hpi dirty key ok ks
      · simpa only [hp, if_false] using hpi)
  show SysInv (if ((sys.shaders ++ sys.changed).any
      (fun p => p.pid == pid && !(p.non_orthogonal_states &&& dirty == 0)
        && (ilo_shader_state_use_variant p key ok ks).2.1)) = true
    then moveToChanged pid
      { sys with
        shaders := sys.shaders.map
          (fun p => if p.pid == pid then (ilo_shader_select_kernel p dirty key ok ks).1 else p),
        changed := sys.changed.map
          (fun p => if p.pid == pid then (ilo_shader_select_kernel p dirty key ok ks).1 else p),
        detached := sys.detached.map
          (fun p => if p.pid == pid then (ilo_shader_select_kernel p dirty key ok ks).1 else p) }
    else
      { sys with
        shaders := sys.shaders.map
          (fun p => if p.pid == pid then (ilo_shader_select_kernel p dirty key ok ks).1 else p),
        changed := sys.changed.map
          (fun p => if p.pid == pid then (ilo_shader_select_kernel p dirty key ok ks).1 else p),
        detached := sys.detached.map
          (fun p => if p.pid == pid then (ilo_shader_select_kernel p dirty key ok ks).1 else p) })
  by_cases hadd : ((sys.shaders ++ sys.changed).any
      (fun p => p.pid == pid && !(p.non_orthogonal_states &&& dirty == 0)
        && (ilo_shader_state_use_variant p key ok ks).2.1)) = true
  · rw [if_pos hadd]
    exact SysInv_moveToChanged hs2 pid
  · rw [if_neg hadd]
    exact hs2

/-- Every public operation preserves the system invariant. -/
theorem step_SysInv {sys : CacheSys} (h : SysInv sys) (op : CacheOp) :
    SysInv (step op sys) := by
  cases op with
  | create mask => exact SysInv_create h mask
  | add pid => exact SysInv_add h pid
  | remove pid => exact SysInv_remove h pid
  | notify pid => exact SysInv_notify h pid
  | upload failures off inc => exact SysInv_upload h failures off inc
  | useVar pid key ok ks => exact SysInv_useVar h pid key ok ks
  | select pid dirty key ok ks => exact SysInv_select h pid dirty key ok ks

theorem SysInv_init : SysInv initSys := by
  refine ⟨?_, ?_, ?_, ?_⟩ <;> intro x <;> simp [initSys, allProgs, pcnt]

theorem SysInv_runOps (ops : List CacheOp) : SysInv (runOps ops) := by
  have hgen : ∀ (l : List CacheOp) (s : CacheSys), SysInv s →
      SysInv (l.foldl (fun s op => step op s) s) := by
    intro l
    induction l with
    | nil => intro s hs; exact hs
    | cons op rest ih =>
      intro s hs
      exact ih _ (step_SysInv hs op)
  exact hgen ops initSys SysInv_init

theorem AlignedVars_of_GoRel {vs ws : List IloShader}
    (h : List.Forall₂ GoRel vs ws) (ha : AlignedVars vs) : AlignedVars ws := by
  intro w hw hup
  obtain ⟨v, hv, hrel⟩ := forall2_mem_right h w hw
  rcases hrel.2.2.2 hup with hal | heq
  · exact hal
  · have hup2 : v.uploaded = true := by rw [← heq]; exact hup
    have hres := ha v hv hup2
    rw [heq]
    exact hres

theorem AlignedVars_use_variant {p : IloShaderState} (hpi : ProgInv p)
    (ha : AlignedVars p.variants) (key : Nat) (ok : Bool) (ks : Nat) :
    AlignedVars (ilo_shader_state_use_variant p key ok ks).1.variants := by
  intro v2 hv2 hup
  rcases use_variant_variants hpi key ok ks v2 hv2 with hin | ⟨hfalse, _⟩
  · exact ha v2 hin hup
  · rw [hfalse] at hup
    cases hup

theorem AlignedVars_select {p : IloShaderState} (hpi : ProgInv p)
    (ha : AlignedVars p.variants) (dirty key : Nat) (ok : Bool) (ks : Nat) :
    AlignedVars (ilo_shader_select_kernel p dirty key ok ks).1.variants := by
  intro v2 hv2 hup
  rcases select_kernel_variants hpi dirty key ok ks v2 hv2 with hin | ⟨hfalse, _⟩
  · exact ha v2 hin hup
  · rw [hfalse] at hup
    cases hup

theorem AlignedVars_reset (p : IloShaderState) :
    AlignedVars (iloCacheAddReset p).variants := by
  intro v hv hup
  obtain ⟨w, _, rfl⟩ := List.mem_map.mp hv
  cases hup

/-- Every public operation preserves the alignment invariant. -/
theorem step_aligned {sys : CacheSys} (hinv : SysInv sys)
    (hal : AlignedSys sys) (op : CacheOp) : AlignedSys (step op sys) := by
  obtain ⟨hcnt, hfresh, hpinv, hreg⟩ := hinv
  cases op with
  | create mask =>
    intro p hp
    have hp2 : p ∈ (sys.shaders ++ sys.changed) ++
      ((⟨sys.next_pid, [], 0, 0, none, 0, mask⟩ : IloShaderState) :: sys.detached) := hp
    rcases List.mem_append.mp hp2 with h1 | h2
    · rcases List.mem_append.mp h1 with ha | hb
      · exact hal p (mem_allProgs_shaders ha)
      · exact hal p (mem_allProgs_changed hb)
    · rcases List.mem_cons.mp h2 with rfl | hd
      · intro v hv; cases hv
      · exact hal p (mem_allProgs_detached hd)
  | add pid =>
    by_cases hm : (sys.detached.filter (fun p => p.pid == pid)).isEmpty = true
    · have he : step (.add pid) sys = sys := by
        simp only [step, hm, if_true]
      rw [he]
      exact hal
    · have hm2 : (sys.detached.filter (fun p => p.pid == pid)).isEmpty = false := by
        revert hm
        cases (sys.detached.filter (fun p => p.pid == pid)).isEmpty <;> simp
      have hstep : step (.add pid) sys =
          { sys with
            changed := (sys.detached.filter (fun p => p.pid == pid)).map iloCacheAddReset
                       ++ sys.changed,
            detached := sys.detached.filter (fun p => p.pid != pid),
            registered := pid :: sys.registered } := by
        simp only [step, hm2, Bool.false_eq_true, if_false]
      rw [hstep]
      intro p hp
      have hp2 : p ∈ (sys.shaders ++
        ((sys.detached.filter (fun p => p.pid == pid)).map iloCacheAddReset ++ sys.changed)) ++
        sys.detached.filter (fun p => p.pid != pid) := hp
      rcases List.mem_append.mp hp2 with h1 | h2
      · rcases List.mem_append.mp h1 with ha | hb
        · exact hal p (mem_allProgs_shaders ha)
        · rcases List.mem_append.mp hb with hm1 | hc1
          · obtain ⟨q, hq, rfl⟩ := List.mem_map.mp hm1
            exact AlignedVars_reset q
          · exact hal p (mem_allProgs_changed hc1)
      · exact hal p (mem_allProgs_detached (List.mem_of_mem_filter h2))
  | remove pid =>
    intro p hp
    have hp2 : p ∈ (sys.shaders.filter (fun p => p.pid != pid) ++
      sys.changed.filter (fun p => p.pid != pid)) ++
      (sys.shaders.filter (fun p => p.pid == pid) ++
       sys.changed.filter (fun p => p.pid == pid) ++ sys.detached) := hp
    rcases List.mem_append.mp hp2 with h1 | h2
    · rcases List.mem_append.mp h1 with ha | hb
      · exact hal p (mem_allProgs_shaders (List.mem_of_mem_filter ha))
      · exact hal p (mem_allProgs_changed (List.mem_of_mem_filter hb))
    · rcases List.mem_append.mp h2 with hc | hd
      · rcases List.mem_append.mp hc with he | hf2
        · exact hal p (mem_allProgs_shaders (List.mem_of_mem_filter he))
        · exact hal p (mem_allProgs_changed (List.mem_of_mem_filter hf2))
      · exact hal p (mem_allProgs_detached hd)
  | notify pid =>
    intro p hp
    exact hal p (moveToChanged_mem pid sys p hp)
  | upload failures off inc =>
    intro p hp
    have hp2 : p ∈
      ((uploadReal (fun o s => !(failures.contains (o, s))) ⟨sys.shaders, sys.changed⟩ off inc).1.shaders ++
       (uploadReal (fun o s => !(failures.contains (o, s))) ⟨sys.shaders, sys.changed⟩ off inc).1.changed) ++
       sys.detached := hp
    rcases List.mem_append.mp hp2 with h1 | h2
    · obtain ⟨q, hq, hpu⟩ := uploadReal_mem (fun o s => !(failures.contains (o, s)))
        ⟨sys.shaders, sys.changed⟩ off inc p h1
      refine AlignedVars_of_GoRel hpu.2.2.2.2 ?_
      rcases List.mem_append.mp hq with ha | hb
      · exact hal q (mem_allProgs_shaders ha)
      · exact hal q (mem_allProgs_changed hb)
    · exact hal p (mem_allProgs_detached h2)
  | useVar pid key ok ks =>
    have hs2 : AlignedSys
        { sys with
          shaders := sys.shaders.map
            (fun p => if p.pid == pid then (ilo_shader_state_use_variant p key ok ks).1 else p),
          changed := sys.changed.map
            (fun p => if p.pid == pid then (ilo_shader_state_use_variant p key ok ks).1 else p),
          detached := sys.detached.map
            (fun p => if p.pid == pid then (ilo_shader_state_use_variant p key ok ks).1 else p) } := by
      intro p hp
      have hp2 : p ∈ (sys.shaders.map
          (fun p => if p.pid == pid then (ilo_shader_state_use_variant p key ok ks).1 else p) ++
        sys.changed.map
          (fun p => if p.pid == pid then (ilo_shader_state_use_variant p key ok ks).1 else p)) ++
        sys.detached.map
          (fun p => if p.pid == pid then (ilo_shader_state_use_variant p key ok ks).1 else p) := hp
      have hgen : ∀ q, q ∈ allProgs sys →
          AlignedVars (if q.pid == pid then (ilo_shader_state_use_variant q key ok ks).1 else q).variants := by
        intro q hq
        by_cases hqp : (q.pid == pid) = true
        · simp only [hqp, if_true]
          exact AlignedVars_use_variant (hpinv q hq) (hal q hq) key ok ks
        · simp only [hqp, Bool.false_eq_true, if_false]
          exact hal q hq
      rcases List.mem_append.mp hp2 with h1 | h2
      · rcases List.mem_append.mp h1 with ha | hb
        · obtain ⟨q, hq, rfl⟩ := List.mem_map.mp ha
          exact hgen q (mem_allProgs_shaders hq)
        · obtain ⟨q, hq, rfl⟩ := List.mem_map.mp hb
          exact hgen q (mem_allProgs_changed hq)
      · obtain ⟨q, hq, rfl⟩ := List.mem_map.mp h2
        exact hgen q (mem_allProgs_detached hq)
    show AlignedSys (if ((sys.shaders ++ sys.changed).any
        (fun p => p.pid == pid && (ilo_shader_state_use_variant p key ok ks).2.1)) = true
      then moveToChanged pid _ else _)
    by_cases hadd : ((sys.shaders ++ sys.changed).any
        (fun p => p.pid == pid && (ilo_shader_state_use_variant p key ok ks).2.1)) = true
    · rw [if_pos hadd]
      intro p hp
      exact hs2 p (moveToChanged_mem pid _ p hp)
    · rw [if_neg hadd]
      exact hs2
  | select pid dirty key ok ks =>
    have hs2 : AlignedSys
        { sys with
          shaders := sys.shaders.map
            (fun p => if p.pid == pid then (ilo_shader_select_kernel p dirty key ok ks).1 else p),
          changed := sys.changed.map
            (fun p => if p.pid == pid then (ilo_shader_select_kernel p dirty key ok ks).1 else p),
          detached := sys.detached.map
            (fun p => if p.pid == pid then (ilo_shader_select_kernel p dirty key ok ks).1 else p) } := by
      intro p hp
      have hp2 : p ∈ (sys.shaders.map
          (fun p => if p.pid == pid then (ilo_shader_select_kernel p dirty key ok ks).1 else p) ++
        sys.changed.map
          (fun p => if p.pid == pid then (ilo_shader_select_kernel p dirty key ok ks).1 else p)) ++
        sys.detached.map
          (fun p => if p.pid == pid then (ilo_shader_select_kernel p dirty key ok ks).1 else p) := hp
      have hgen : ∀ q, q ∈ allProgs sys →
          AlignedVars (if q.pid == pid then (ilo_shader_select_kernel q dirty key ok ks).1 else q).variants := by
        intro q hq
        by_cases hqp : (q.pid == pid) = true
        · simp only [hqp, if_true]
          exact AlignedVars_select (hpinv q hq) (hal q hq) dirty key ok ks
        · simp only [hqp, Bool.false_eq_true, if_false]
          exact hal q hq
      rcases List.mem_append.mp hp2 with h1 | h2
      · rcases List.mem_append.mp h1 with ha | hb
        · obtain ⟨q, hq, rfl⟩ := List.mem_map.mp ha
          exact hgen q (mem_allProgs_shaders hq)
        · obtain ⟨q, hq, rfl⟩ := List.mem_map.mp hb
          exact hgen q (mem_allProgs_changed hq)
      · obtain ⟨q, hq, rfl⟩ := List.mem_map.mp h2
        exact hgen q (mem_allProgs_detached hq)
    show AlignedSys (if ((sys.shaders ++ sys.changed).any
        (fun p => p.pid == pid && !(p.non_orthogonal_states &&& dirty == 0)
          && (ilo_shader_state_use_variant p key ok ks).2.1)) = true
      then moveToChanged pid _ else _)
    by_cases hadd : ((sys.shaders ++ sys.changed).any
        (fun p => p.pid == pid && !(p.non_orthogonal_states &&& dirty == 0)
          && (ilo_shader_state_use_variant p key ok ks).2.1)) = true
    · rw [if_pos hadd]
      intro p hp
      exact hs2 p (moveToChanged_mem pid _ p hp)
    · rw [if_neg hadd]
      exact hs2

theorem aligned_runOps (ops : List CacheOp) : AlignedSys (runOps ops) := by
  have hgen : ∀ (l : List CacheOp) (s : CacheSys), SysInv s → AlignedSys s →
      AlignedSys (l.foldl (fun s op => step op s) s) := by
    intro l
    induction l with
    | nil => intro s _ ha; exact ha
    | cons op rest ih =>
      intro s hs ha
      exact ih _ (step_SysInv hs op) (step_aligned hs ha op)
  refine hgen ops initSys SysInv_init ?_
  intro p hp
  cases hp

theorem VMR_of_subset {vs ws : List IloShader} (h : ∀ w ∈ ws, w ∈ vs) :
    VarsMonoRel vs ws := by
  intro w hw
  exact Or.inl ⟨w, h w hw, rfl, fun hu => hu⟩

theorem VMR_refl (vs : List IloShader) : VarsMonoRel vs vs :=
  VMR_of_subset (fun _ hw => hw)

theorem VMR_of_GoRel {vs ws : List IloShader} (h : List.Forall₂ GoRel vs ws) :
    VarsMonoRel vs ws := by
  intro w hw
  obtain ⟨v, hv, hrel⟩ := forall2_mem_right h w hw
  exact Or.inl ⟨v, hv, hrel.1, hrel.2.2.1⟩

theorem VMR_use_variant {p : IloShaderState} (hpi : ProgInv p)
    (key : Nat) (ok : Bool) (ks : Nat) :
    VarsMonoRel p.variants (ilo_shader_state_use_variant p key ok ks).1.variants := by
  intro w hw
  rcases use_variant_variants hpi key ok ks w hw with hin | ⟨_, hfresh⟩
  · exact Or.inl ⟨w, hin, rfl, fun hu => hu⟩
  · exact Or.inr hfresh

theorem VMR_select {p : IloShaderState} (hpi : ProgInv p)
    (dirty key : Nat) (ok : Bool) (ks : Nat) :
    VarsMonoRel p.variants (ilo_shader_select_kernel p dirty key ok ks).1.variants := by
  intro w hw
  rcases select_kernel_variants hpi dirty key ok ks w hw with hin | ⟨_, hfresh⟩
  · exact Or.inl ⟨w, hin, rfl, fun hu => hu⟩
  · exact Or.inr hfresh

/-- For every public operation except ilo_shader_cache_add, each program in
the post state is either variant-free or derives from a pre-state program
of the same identity via the monotone variant relation. -/
theorem step_mono {sys : CacheSys} (hinv : SysInv sys) {op : CacheOp}
    (hop : ∀ m, op ≠ CacheOp.add m) :
    ∀ q ∈ allProgs (step op sys), q.variants = [] ∨
      ∃ p ∈ allProgs sys, q.pid = p.pid ∧ VarsMonoRel p.variants q.variants := by
  obtain ⟨hcnt, hfresh, hpinv, hreg⟩ := hinv
  cases op with
  | add pid => exact absurd rfl (hop pid)
  | create mask =>
    intro q hq
    have hq2 : q ∈ (sys.shaders ++ sys.changed) ++
      ((⟨sys.next_pid, [], 0, 0, none, 0, mask⟩ : IloShaderState) :: sys.detached) := hq
    rcases List.mem_append.mp hq2 with h1 | h2
    · rcases List.mem_append.mp h1 with ha | hb
      · exact Or.inr ⟨q, mem_allProgs_shaders ha, rfl, VMR_refl q.variants⟩
      · exact Or.inr ⟨q, mem_allProgs_changed hb, rfl, VMR_refl q.variants⟩
    · rcases List.mem_cons.mp h2 with rfl | hd
      · exact Or.inl rfl
      · exact Or.inr ⟨q, mem_allProgs_detached hd, rfl, VMR_refl q.variants⟩
  | remove pid =>
    intro q hq
    have hq2 : q ∈ (sys.shaders.filter (fun p => p.pid != pid) ++
      sys.changed.filter (fun p => p.pid != pid)) ++
      (sys.shaders.filter (fun p => p.pid == pid) ++
       sys.changed.filter (fun p => p.pid == pid) ++ sys.detached) := hq
    refine Or.inr ⟨q, ?_, rfl, VMR_refl q.variants⟩
    rcases List.mem_append.mp hq2 with h1 | h2
    · rcases List.mem_append.mp h1 with ha | hb
      · exact mem_allProgs_shaders (List.mem_of_mem_filter ha)
      · exact mem_allProgs_changed (List.mem_of_mem_filter hb)
    · rcases List.mem_append.mp h2 with hc | hd
      · rcases List.mem_append.mp hc with he | hf2
        · exact mem_allProgs_shaders (List.mem_of_mem_filter he)
        · exact mem_allProgs_changed (List.mem_of_mem_filter hf2)
      · exact mem_allProgs_detached hd
  | notify pid =>
    intro q hq
    exact Or.inr ⟨q, moveToChanged_mem pid sys q hq, rfl, VMR_refl q.variants⟩
  | upload failures off inc =>
    intro q hq
    have hq2 : q ∈
      ((uploadReal (fun o s => !(failures.contains (o, s))) ⟨sys.shaders, sys.changed⟩ off inc).1.shaders ++
       (uploadReal (fun o s => !(failures.contains (o, s))) ⟨sys.shaders, sys.changed⟩ off inc).1.changed) ++
       sys.detached := hq
    rcases List.mem_append.mp hq2 with h1 | h2
    · obtain ⟨p, hp, hpu⟩ := uploadReal_mem (fun o s => !(failures.contains (o, s)))
        ⟨sys.shaders, sys.changed⟩ off inc q h1
      refine Or.inr ⟨p, ?_, hpu.1, VMR_of_GoRel hpu.2.2.2.2⟩
      rcases List.mem_append.mp hp with ha | hb
      · exact mem_allProgs_shaders ha
      · exact mem_allProgs_changed hb
    · exact Or.inr ⟨q, mem_allProgs_detached h2, rfl, VMR_refl q.variants⟩
  | useVar pid key ok ks =>
    have hgen : ∀ q0, q0 ∈ allProgs sys →
        ∃ p ∈ allProgs sys,
          (if q0.pid == pid then (ilo_shader_state_use_variant q0 key ok ks).1 else q0).pid = p.pid ∧
          VarsMonoRel p.variants
            (if q0.pid == pid then (ilo_shader_state_use_variant q0 key ok ks).1 else q0).variants := by
      intro q0 hq0
      by_cases hqp : (q0.pid == pid) = true
      · refine ⟨q0, hq0, ?_, ?_⟩
        · simp only [hqp, if_true]
          exact use_variant_pid q0 key ok ks
        · simp only [hqp, if_true]
          exact VMR_use_variant (hpinv q0 hq0) key ok ks
      · refine ⟨q0, hq0, ?_, ?_⟩
        · simp [hqp]
        · have he : (if q0.pid == pid then (ilo_shader_state_use_variant q0 key ok ks).1 else q0) = q0 := by
            simp [hqp]
          rw [he]
          exact VMR_refl q0.variants
    have hs2 : ∀ q ∈ allProgs
        { sys with
          shaders := sys.shaders.map
            (fun p => if p.pid == pid then (ilo_shader_state_use_variant p key ok ks).1 else p),
          changed := sys.changed.map
            (fun p => if p.pid == pid then (ilo_shader_state_use_variant p key ok ks).1 else p),
          detached := sys.detached.map
            (fun p => if p.pid == pid then (ilo_shader_state_use_variant p key ok ks).1 else p) },
        ∃ p ∈ allProgs sys, q.pid = p.pid ∧ VarsMonoRel p.variants q.variants := by
      intro q hq
      have hq2 : q ∈ (sys.shaders.map
          (fun p => if p.pid == pid then (ilo_shader_state_use_variant p key ok ks).1 else p) ++
        sys.changed.map
          (fun p => if p.pid == pid then (ilo_shader_state_use_variant p key ok ks).1 else p)) ++
        sys.detached.map
          (fun p => if p.pid == pid then (ilo_shader_state_use_variant p key ok ks).1 else p) := hq
      rcases List.mem_append.mp hq2 with h1 | h2
      · rcases List.mem_append.mp h1 with ha | hb
        · obtain ⟨q0, hq0, rfl⟩ := List.mem_map.mp ha
          exact hgen q0 (mem_allProgs_shaders hq0)
        · obtain ⟨q0, hq0, rfl⟩ := List.mem_map.mp hb
          exact hgen q0 (mem_allProgs_changed hq0)
      · obtain ⟨q0, hq0, rfl⟩ := List.mem_map.mp h2
        exact hgen q0 (mem_allProgs_detached hq0)
    show ∀ q ∈ allProgs (if ((sys.shaders ++ sys.changed).any
        (fun p => p.pid == pid && (ilo_shader_state_use_variant p key ok ks).2.1)) = true
      then moveToChanged pid _ else _), _
    by_cases hadd : ((sys.shaders ++ sys.changed).any
        (fun p => p.pid == pid && (ilo_shader_state_use_variant p key ok ks).2.1)) = true
    · rw [if_pos hadd]
      intro q hq
      exact Or.inr (hs2 q (moveToChanged_mem pid _ q hq))
    · rw [if_neg hadd]
      intro q hq
      exact Or.inr (hs2 q hq)
  | select pid dirty key ok ks =>
    have hgen : ∀ q0, q0 ∈ allProgs sys →
        ∃ p ∈ allProgs sys,
          (if q0.pid == pid then (ilo_shader_select_kernel q0 dirty key ok ks).1 else q0).pid = p.pid ∧
          VarsMonoRel p.variants
            (if q0.pid == pid then (ilo_shader_select_kernel q0 dirty key ok ks).1 else q0).variants := by
      intro q0 hq0
      by_cases hqp : (q0.pid == pid) = true
      · refine ⟨q0, hq0, ?_, ?_⟩
        · simp only [hqp, if_true]
          exact select_kernel_pid q0 dirty key ok ks
        · simp only [hqp, if_true]
          exact VMR_select (hpinv q0 hq0) dirty key ok ks
      · refine ⟨q0, hq0, ?_, ?_⟩
        · simp [hqp]
        · have he : (if q0.pid == pid then (ilo_shader_select_kernel q0 dirty key ok ks).1 else q0) = q0 := by
            simp [hqp]
          rw [he]
          exact VMR_refl q0.variants
    have hs2 : ∀ q ∈ allProgs
        { sys with
          shaders := sys.shaders.map
            (fun p => if p.pid == pid then (ilo_shader_select_kernel p dirty key ok ks).1 else p),
          changed := sys.changed.map
            (fun p => if p.pid == pid then (ilo_shader_select_kernel p dirty key ok ks).1 else p),
          detached := sys.detached.map
            (fun p => if p.pid == pid then (ilo_shader_select_kernel p dirty key ok ks).1 else p) },
        ∃ p ∈ allProgs sys, q.pid = p.pid ∧ VarsMonoRel p.variants q.variants := by
      intro q hq
      have hq2 : q ∈ (sys.shaders.map
          (fun p => if p.pid == pid then (ilo_shader_select_kernel p dirty key ok ks).1 else p) ++
        sys.changed.map
          (fun p => if p.pid == pid then (ilo_shader_select_kernel p dirty key ok ks).1 else p)) ++
        sys.detached.map
          (fun p => if p.pid == pid then (ilo_shader_select_kernel p dirty key ok ks).1 else p) := hq
      rcases List.mem_append.mp hq2 with h1 | h2
      · rcases List.mem_append.mp h1 with ha | hb
        · obtain ⟨q0, hq0, rfl⟩ := List.mem_map.mp ha
          exact hgen q0 (mem_allProgs_shaders hq0)
        · obtain ⟨q0, hq0, rfl⟩ := List.mem_map.mp hb
          exact hgen q0 (mem_allProgs_changed hq0)
      · obtain ⟨q0, hq0, rfl⟩ := List.mem_map.mp h2
        exact hgen q0 (mem_allProgs_detached hq0)
    show ∀ q ∈ allProgs (if ((sys.shaders ++ sys.changed).any
        (fun p => p.pid == pid && !(p.non_orthogonal_states &&& dirty == 0)
          && (ilo_shader_state_use_variant p key ok ks).2.1)) = true
      then moveToChanged pid _ else _), _
    by_cases hadd : ((sys.shaders ++ sys.changed).any
        (fun p => p.pid == pid && !(p.non_orthogonal_states &&& dirty == 0)
          && (ilo_shader_state_use_variant p key ok ks).2.1)) = true
    · rw [if_pos hadd]
      intro q hq
      exact Or.inr (hs2 q (moveToChanged_mem pid _ q hq))
    · rw [if_neg hadd]
      intro q hq
      exact Or.inr (hs2 q hq)


/-- Claim C5: in every reachable cache state, a registered program (added
and not since removed) appears in exactly one of the cache's two lists:
its occurrence count over the resident list plus the changed list is
exactly one. -/
theorem claim_C5_exactly_one_list (ops : List CacheOp) (i : Nat)
    (h : i ∈ (runOps ops).registered) :
    (runOps ops).shaders.countP (fun p => p.pid == i) +
    (runOps ops).changed.countP (fun p => p.pid == i) = 1 := by
  obtain ⟨hcnt, _, _, hreg⟩ := SysInv_runOps ops
  have h1 := (hreg i).mp h
  rw [pcnt_append] at h1
  have h2 := hcnt i
  unfold allProgs at h2
  rw [pcnt_append, pcnt_append] at h2
  show pcnt i (runOps ops).shaders + pcnt i (runOps ops).changed = 1
  omega

theorem claim_C5_witness :
    (runOps [.create 0, .add 0]).shaders.countP (fun p => p.pid == 0) +
    (runOps [.create 0, .add 0]).changed.countP (fun p => p.pid == 0) = 1 :=
  claim_C5_exactly_one_list [.create 0, .add 0] 0 (by decide)

/-- Claim C6: after any sequence of public operations (in particular any
sequence of upload calls), every kernel variant with uploaded = true has a
cache_offset divisible by 64; and align(off, 64) — the offset used for
every kernel start in both the real-upload and dry-run paths — is the
smallest multiple of 64 that is at least the current cursor. -/
theorem claim_C6_alignment :
    (∀ ops : List CacheOp, ∀ p ∈ allProgs (runOps ops), ∀ v ∈ p.variants,
      v.uploaded = true → v.cache_offset % 64 = 0) ∧
    (∀ off : Nat, align off 64 % 64 = 0 ∧ off ≤ align off 64 ∧
      ∀ m, m % 64 = 0 → off ≤ m → align off 64 ≤ m) := by
  constructor
  · intro ops p hp v hv hup
    exact aligned_runOps ops p hp v hv hup
  · intro off
    exact ⟨align_mod off, align_ge off, fun m hm hle => align_least off m hm hle⟩

theorem claim_C6_witness : align 5 64 ≤ 128 :=
  (claim_C6_alignment.2 5).2.2 128 (by decide) (by decide)

/-- Claim C3 counterexample: the public sequence create, add, use-variant,
upload, remove leaves a program whose only variant (vid 0) is Uploaded;
re-adding the program via ilo_shader_cache_add flips that same variant —
still in its program's variant list — back to uploaded = false, an
Uploaded-to-Compiled transition under a public cache operation. -/
theorem claim_C3_counterexample :
    ((runOps cexOpsC3).detached.map
      (fun p => (p.pid, p.variants.map (fun v => (v.vid, v.uploaded))))) =
      [(0, [(0, true)])] ∧
    ((runOps (cexOpsC3 ++ [.add 0])).changed.map
      (fun p => (p.pid, p.variants.map (fun v => (v.vid, v.uploaded))))) =
      [(0, [(0, false)])] :=
  ⟨by decide, by decide⟩

/-- Claim C3 (amended): under every public cache or shader operation other
than ilo_shader_cache_add — which deliberately resets every variant of the
re-added program to uploaded = false — no variant that remains in its
program's variant list ever goes from uploaded = true back to
uploaded = false; and upload with incremental = true skips an
already-uploaded variant leaving every field unchanged. -/
theorem claim_C3_mono_except_add (ops : List CacheOp) (op : CacheOp)
    (hop : ∀ m, op ≠ CacheOp.add m) :
    (∀ p ∈ allProgs (runOps ops), ∀ v ∈ p.variants, v.uploaded = true →
      ∀ q ∈ allProgs (step op (runOps ops)), q.pid = p.pid →
        ∀ w ∈ q.variants, w.vid = v.vid → w.uploaded = true) ∧
    (∀ (wok : Nat → Nat → Bool) (vars : List IloShader) (off : Nat),
      List.Forall₂ (fun v v2 => v.uploaded = true → v2 = v) vars
        (uploadShaderGo wok true vars off).1) := by
  have hinv := SysInv_runOps ops
  constructor
  · intro p hp v hv hup q hq hqp w hw hwvid
    rcases step_mono hinv hop q hq with hnil | ⟨p0, hp0, hqpid, hvmr⟩
    · rw [hnil] at hw
      cases hw
    · have hpeq : p0 = p := by
        refine countP_le_one_inj (hinv.1 p.pid) hp0 hp ?_ ?_
        · show (p0.pid == p.pid) = true
          rw [← hqpid, hqp]
          simp
        · simp
      subst hpeq
      rcases hvmr w hw with ⟨v0, hv0, hwv0, hmono⟩ | hnone
      · have hveq : v0 = v := by
          refine countP_le_one_inj ((hinv.2.2.1 p0 hp).1 v.vid) hv0 hv ?_ ?_
          · show (v0.vid == v.vid) = true
            rw [← hwv0, hwvid]
            simp
          · simp
        rw [hveq] at hmono
        exact hmono hup
      · exact absurd hwvid.symm (hnone v hv)
  · intro wok vars off
    exact go_skip wok vars off

theorem claim_C3_witness :
    (⟨0, 5, 100, true, 0⟩ : IloShader).uploaded = true :=
  (claim_C3_mono_except_add cexOpsC3w (.notify 0)
      (fun m h => CacheOp.noConfusion h)).1
    cexProgC3 (by decide) ⟨0, 5, 100, true, 0⟩ (by decide) (by decide)
    cexProgC3 (by decide) rfl ⟨0, 5, 100, true, 0⟩ (by decide) rfl

end Ilo
